import Mathlib

/-!
Verification of the kalshi_edge trading pipeline: a shallow embedding of the
sizing, execution, calibration, estimation and ledger code in Lean 4 (exact
rational arithmetic unless noted), with theorems settling the specification
claims.
-/

namespace KalshiEdge

/-- Trade side of a binary contract signal. -/
inductive Side where
  | yes
  | no
deriving DecidableEq, Repr

/-- Flat USD risk caps, from `get_risk_limits`. -/
structure RiskLimits where
  max_risk_per_trade : ℚ
  max_risk_per_market : ℚ
  max_risk_total : ℚ
deriving DecidableEq, Repr

/-- Hard safety cap on contract count per order (`MAX_CONTRACTS_CAP`). -/
def MAX_CONTRACTS_CAP : ℤ := 1000

/-- The side-appropriate per-contract risk computed at the top of
`compute_order_size_for_signal`: `1 - price` for NO, `price` for YES. -/
def sideRiskPerContract (side : Side) (price : ℚ) : ℚ :=
  match side with
  | .no => 1 - price
  | .yes => price

/-- The binding cap (`max_risk` in `compute_order_size_for_signal`):
minimum of the per-trade cap (flat limit vs bankroll times risk fraction)
and the remaining per-market and total headrooms. -/
def bindingCap (bankroll : ℚ) (limits : RiskLimits)
    (per_market_risk total_risk fraction : ℚ) : ℚ :=
  let per_trade_cap := min limits.max_risk_per_trade (bankroll * fraction)
  let remaining_market := limits.max_risk_per_market - per_market_risk
  let remaining_total := limits.max_risk_total - total_risk
  min per_trade_cap (min remaining_market remaining_total)

/-- Embedding of `compute_order_size_for_signal`
(`src/kalshi_edge/execution/execute_signals.py`), over exact rationals.
Returns `(size, risk_per_contract)`. -/
def compute_order_size_for_signal (side : Side) (price bankroll : ℚ)
    (limits : RiskLimits) (per_market_risk total_risk fraction : ℚ) : ℤ × ℚ :=
  let risk_per_contract := sideRiskPerContract side price
  if risk_per_contract ≤ 0 then (0, risk_per_contract)
  else
    let max_risk := bindingCap bankroll limits per_market_risk total_risk fraction
    if max_risk ≤ 0 then (0, risk_per_contract)
    else
      -- Default target risk is ~$3 per order unless caps force lower.
      let target_risk := min 3 max_risk
      let size0 : ℤ := ⌈target_risk / risk_per_contract⌉
      -- Ensure we don't exceed max_risk
      let size1 : ℤ :=
        if (size0 : ℚ) * risk_per_contract > max_risk
        then ⌊max_risk / risk_per_contract⌋ else size0
      if size1 ≤ 0 then (0, risk_per_contract)
      else (min size1 MAX_CONTRACTS_CAP, risk_per_contract)

/-! ## Execution engine: batch state and dispatch loop -/

/-- One row of the `signals` table, as read by `fetch_pending_signals` and
written by `update_signal_execution` / the cancel sweeps. Market tickers are
modelled as naturals, timestamps as integers, statuses as strings. -/
structure SignalRow where
  id : ℕ
  market : ℕ
  side : Side
  p_mkt : ℚ
  size : ℤ
  status : String
  created_at : ℤ
  last_error : Option String
  executed_price : Option ℚ
  executed_size : Option ℤ
deriving DecidableEq, Repr

/-- Venue order-placement response (`client.place_order`), with the
optional fields `execute_signals` reads off it. -/
structure OrderResp where
  order_id : String
  avg_price : Option ℚ
  filled_size : Option ℤ
  status : Option String
deriving DecidableEq, Repr

/-- Execution mode from `get_execution_mode`. -/
inductive ExecMode where
  | simulate
  | live
deriving DecidableEq, Repr

/-- A trade record as passed to `record_trade` by `execute_signals`. -/
structure TradeRec where
  signal_id : ℕ
  market : ℕ
  side : Side
  size : ℤ
  price : ℚ
  direction : String
deriving DecidableEq, Repr

/-- Which branch of the `execute_signals` loop body fired for a signal
(the observable outcome; guard branches correspond to the distinct
`ignored` reason messages written by the code). -/
inductive Outcome where
  | sizedZero
  | perTradeCapExceeded
  | perMarketCapExceeded
  | totalCapExceeded
  | dispatched (size : ℤ) (risk_per_contract : ℚ)
  | submitError (msg : String)
deriving DecidableEq, Repr

/-- Per-signal result of one iteration of the `execute_signals` loop:
the status written by `update_signal_execution`, the recorded error,
executed price/size, the trade recorded (if any), and the branch taken. -/
structure StepResult where
  id : ℕ
  status : String
  error : Option String
  executed_price : Option ℚ
  executed_size : Option ℤ
  trade : Option TradeRec
  outcome : Outcome
deriving DecidableEq, Repr

/-- The in-memory running risk view of `execute_signals`: total committed
risk and the per-market breakout (an association list, first hit wins). -/
structure ExecState where
  total : ℚ
  per_market : List (ℕ × ℚ)
deriving DecidableEq, Repr

/-- `per_market.get(market, 0.0)`. -/
def lookupRisk : List (ℕ × ℚ) → ℕ → ℚ
  | [], _ => 0
  | (k, v) :: rest, m => if k = m then v else lookupRisk rest m

/-- `per_market[market] = per_market.get(market, 0.0) + r`. -/
def bumpRisk : List (ℕ × ℚ) → ℕ → ℚ → List (ℕ × ℚ)
  | [], m, r => [(m, r)]
  | (k, v) :: rest, m, r =>
      if k = m then (k, v + r) :: rest else (k, v) :: bumpRisk rest m r

/-- One iteration of the `execute_signals` loop
(`src/kalshi_edge/execution/execute_signals.py`, lines 226-343): size the
signal, run the three guard checks, then dispatch (simulate or live via the
`client` oracle) and update the running risk counters. -/
def execStep (mode : ExecMode) (client : SignalRow → ℤ → Except String OrderResp)
    (limits : RiskLimits) (bankroll fraction : ℚ)
    (st : ExecState) (sig : SignalRow) : StepResult × ExecState :=
  let current_market_risk := lookupRisk st.per_market sig.market
  let sr := compute_order_size_for_signal sig.side sig.p_mkt bankroll limits
    current_market_risk st.total fraction
  let size := sr.1
  let risk_per_contract := sr.2
  if size ≤ 0 then
    ({ id := sig.id, status := "ignored",
       error := some "Insufficient risk budget for dynamic sizing",
       executed_price := none, executed_size := none, trade := none,
       outcome := .sizedZero }, st)
  else
    let risk_new := risk_per_contract * size
    if limits.max_risk_per_trade < risk_new then
      ({ id := sig.id, status := "ignored",
         error := some "Risk per trade exceeds limit",
         executed_price := none, executed_size := none, trade := none,
         outcome := .perTradeCapExceeded }, st)
    else
      let market_risk := lookupRisk st.per_market sig.market
      if limits.max_risk_per_market < market_risk + risk_new then
        ({ id := sig.id, status := "ignored",
           error := some "Per-market risk exceeds limit",
           executed_price := none, executed_size := none, trade := none,
           outcome := .perMarketCapExceeded }, st)
      else if limits.max_risk_total < st.total + risk_new then
        ({ id := sig.id, status := "ignored",
           error := some "Total risk exceeds limit",
           executed_price := none, executed_size := none, trade := none,
           outcome := .totalCapExceeded }, st)
      else
        match mode with
        | .simulate =>
          ({ id := sig.id, status := "simulated", error := none,
             executed_price := some sig.p_mkt, executed_size := some size,
             trade := some ⟨sig.id, sig.market, sig.side, size, sig.p_mkt, "buy"⟩,
             outcome := .dispatched size risk_per_contract },
           { total := st.total + risk_new,
             per_market := bumpRisk st.per_market sig.market risk_new })
        | .live =>
          match client sig size with
          | .error e =>
            ({ id := sig.id, status := "error", error := some e,
               executed_price := none, executed_size := none, trade := none,
               outcome := .submitError e }, st)
          | .ok resp =>
            let limit_price := sig.p_mkt
            -- `resp.get(...) or fallback`: 0 / empty string are falsy in Python
            let executed_price := match resp.avg_price with
              | some v => if v = 0 then limit_price else v
              | none => limit_price
            let executed_size := match resp.filled_size with
              | some n => if n = 0 then size else n
              | none => size
            let status := match resp.status with
              | some s => if s = "" then "sent" else s
              | none => "sent"
            ({ id := sig.id, status := status, error := none,
               executed_price := some executed_price,
               executed_size := some executed_size,
               trade := some ⟨sig.id, sig.market, sig.side, executed_size,
                 executed_price, "buy"⟩,
               outcome := .dispatched size risk_per_contract },
             { total := st.total + risk_new,
               per_market := bumpRisk st.per_market sig.market risk_new })

/-- The `execute_signals` batch loop over the fetched pending signals. -/
def execBatch (mode : ExecMode) (client : SignalRow → ℤ → Except String OrderResp)
    (limits : RiskLimits) (bankroll fraction : ℚ) :
    ExecState → List SignalRow → List StepResult × ExecState
  | st, [] => ([], st)
  | st, sig :: rest =>
      let r := execStep mode client limits bankroll fraction st sig
      let rs := execBatch mode client limits bankroll fraction r.2 rest
      (r.1 :: rs.1, rs.2)

/-- `fetch_pending_signals`: rows with status `'pending'`, oldest first,
up to the batch limit. -/
def fetch_pending_signals (limit : ℕ) (table : List SignalRow) : List SignalRow :=
  ((table.filter (fun r => r.status = "pending")).mergeSort
    (fun a b => a.created_at ≤ b.created_at)).take limit

/-! ## Signal sweeps (stale cancel, dashboard bulk cancel) -/

/-- The statuses both cancel sweeps treat as open
(`WHERE status IN ('pending','resting','sent','simulated')`). -/
def OPEN_STATUSES : List String := ["pending", "resting", "sent", "simulated"]

/-- Per-row effect of the `cancel_stale_signals` UPDATE
(`src/kalshi_edge/signals/manage_signals.py`). -/
def cancelStaleRow (cutoff : ℤ) (row : SignalRow) : SignalRow :=
  if row.status ∈ OPEN_STATUSES ∧ row.created_at < cutoff then
    { row with
      status := "cancelled",
      last_error := some "auto-cancelled stale signal",
      executed_price := some (row.executed_price.getD 0),
      executed_size := some (row.executed_size.getD 0) }
  else row

/-- `cancel_stale_signals`: the UPDATE applied to every row of the table. -/
def cancel_stale_signals (cutoff : ℤ) (table : List SignalRow) : List SignalRow :=
  table.map (cancelStaleRow cutoff)

/-- Per-row effect of the dashboard `cancel_open_signals` UPDATE
(`src/kalshi_edge/api/app.py`). -/
def cancelOpenRow (row : SignalRow) : SignalRow :=
  if row.status ∈ OPEN_STATUSES then
    { row with
      status := "cancelled",
      last_error := some "cancelled via dashboard",
      executed_price := some (row.executed_price.getD 0),
      executed_size := some (row.executed_size.getD 0) }
  else row

/-- `cancel_open_signals`: the UPDATE applied to every row of the table. -/
def cancel_open_signals (table : List SignalRow) : List SignalRow :=
  table.map cancelOpenRow

/-! ## Position/PnL ledger -/

/-- A row of the `positions` table (keyed externally by market and side). -/
structure PositionRow where
  size : ℤ
  avg_entry_price : ℚ
  realized_pnl : ℚ
deriving DecidableEq, Repr

/-- `_profit_yes` (`src/kalshi_edge/portfolio/pnl.py`). -/
def profit_yes (avg_price trade_price : ℚ) (direction : String) (size : ℤ) : ℚ :=
  let delta := trade_price - avg_price
  if direction = "sell" then delta * size else -delta * size

/-- `_profit_no`: NO-side profit using the YES price representation. -/
def profit_no (avg_yes_price trade_yes_price : ℚ) (direction : String) (size : ℤ) : ℚ :=
  let delta := avg_yes_price - trade_yes_price
  if direction = "buy" then delta * size else -delta * size

/-- `_update_position`: the row resulting from applying a signed size delta
at `price` to the existing `(market, side)` position (`none` when no row
exists).  The upsert accumulates `realized_pnl` by adding the realized
delta of this trade to the stored value. -/
def update_position (prev : Option PositionRow) (side : Side)
    (size_delta : ℤ) (price : ℚ) : PositionRow :=
  let size_prev := (prev.map (·.size)).getD 0
  let avg_prev := (prev.map (·.avg_entry_price)).getD 0
  let realized_prev := (prev.map (·.realized_pnl)).getD 0
  if (0 ≤ size_prev ∧ 0 ≤ size_delta) ∨ (size_prev ≤ 0 ∧ size_delta ≤ 0) then
    -- Same direction extension
    let total_cost := avg_prev * |size_prev| + price * |size_delta|
    let denom := |size_prev| + |size_delta|
    let avg_new := if denom = 0 then 0 else total_cost / denom
    { size := size_prev + size_delta, avg_entry_price := avg_new,
      realized_pnl := realized_prev }
  else
    -- Closing/flip
    let closing := min |size_prev| |size_delta|
    let realized_delta :=
      match side with
      | .yes => profit_yes avg_prev price
          (if 0 < size_prev then "sell" else "buy") closing
      | .no => profit_no avg_prev price
          (if size_prev < 0 then "buy" else "sell") closing
    if |size_prev| < |size_delta| then
      -- flipped direction
      let remaining := |size_delta| - |size_prev|
      { size := if 0 < size_delta then remaining else -remaining,
        avg_entry_price := price,
        realized_pnl := realized_prev + realized_delta }
    else
      { size := size_prev + size_delta, avg_entry_price := avg_prev,
        realized_pnl := realized_prev + realized_delta }

/-- A keyed row of the `positions` table as a whole. -/
structure PositionTableRow where
  market : ℕ
  side : Side
  size : ℤ
  avg_entry_price : ℚ
  realized_pnl : ℚ
deriving DecidableEq, Repr

/-- A position reported by the venue portfolio API (`kalshi_python`
`Position`: `ticker`, `position` = YES count, `total_cost` in cents);
`getattr` may yield `None` for any field. -/
structure VenuePos where
  ticker : Option ℕ
  position : Option ℤ
  total_cost : Option ℚ
deriving DecidableEq, Repr

/-- `sync_positions` (`src/kalshi_edge/portfolio/sync_positions.py`):
TRUNCATE the positions table, then insert one YES row per venue position
with all fields present and a nonzero count.  The INSERT does not set
`realized_pnl` (schema default 0; the migrations directory is not part of
the sources under verification). -/
def sync_positions (venue : List VenuePos) (_table : List PositionTableRow) :
    List PositionTableRow :=
  venue.filterMap fun pos =>
    match pos.ticker, pos.position, pos.total_cost with
    | some ticker, some count, some cost_cents =>
        if count = 0 then none
        else some { market := ticker, side := .yes, size := count,
                    avg_entry_price := (cost_cents / 100) / |(count : ℚ)|,
                    realized_pnl := 0 }
    | _, _, _ => none

/-! ## Calibration: buckets, edges, bucket assignment -/

/-- A calibration bucket (`_init_buckets_from_edges` dict, with the
running `p_mkt_sum` accumulator). -/
structure CalBucket where
  bucket_low : ℚ
  bucket_high : ℚ
  n : ℕ
  n_yes : ℕ
  p_mkt_sum : ℚ
  p_mkt_avg : Option ℚ
  p_true : Option ℚ
deriving DecidableEq, Repr

/-- The recursion of `_init_buckets_from_edges` over consecutive edge
pairs: raise at the first non-increasing pair, else build the buckets. -/
def initBucketsGo : List (ℚ × ℚ) → Except String (List CalBucket)
  | [] => .ok []
  | (low, high) :: rest =>
      if high ≤ low then .error "Bin edges must be strictly increasing"
      else (initBucketsGo rest).map
        (⟨low, high, 0, 0, 0, none, none⟩ :: ·)

/-- `_init_buckets_from_edges` (`src/kalshi_edge/backtest/calibration.py`):
configuration errors (fewer than two edges, non-increasing edges) are
raised immediately. -/
def _init_buckets_from_edges (edges : List ℚ) : Except String (List CalBucket) :=
  if edges.length < 2 then .error "At least two edges are required"
  else initBucketsGo (edges.zip edges.tail)

/-- The enumerated scan of `_bucket_from_edges` over
`zip(edges[:-1], edges[1:])`; `n` is `len(edges)`, so the bucket at index
`n - 2` is right-inclusive.  Falls through to `n - 2`. -/
def bucketScan (n : ℕ) (p : ℚ) : ℕ → List (ℚ × ℚ) → ℕ
  | _, [] => n - 2
  | idx, (low, high) :: rest =>
      if (low ≤ p ∧ p < high) ∨ (idx = n - 2 ∧ p ≤ high) then idx
      else bucketScan n p (idx + 1) rest

/-- `_bucket_from_edges`: bucket index for price `p` given explicit bin
edges (clamping below the first and at/above the last edge). -/
def _bucket_from_edges (p : ℚ) (edges : List ℚ) : ℕ :=
  match edges with
  | [] => 0   -- unreachable for validated edge lists
  | e₀ :: rest =>
      if p ≤ e₀ then 0
      else if (e₀ :: rest).getLast (List.cons_ne_nil e₀ rest) ≤ p then
        edges.length - 2
      else bucketScan edges.length p 0 (edges.zip edges.tail)

/-- Membership of price `p` in bucket `i` of an edge list: half-open
`[edges[i], edges[i+1])`, except the last bucket (`i = len - 2`), which is
closed on the right. -/
def inBucketIdx (edges : List ℚ) (i : ℕ) (p : ℚ) : Prop :=
  edges.getD i 0 ≤ p ∧
    (if i = edges.length - 2 then p ≤ edges.getD (i+1) 0
     else p < edges.getD (i+1) 0)

/-! ## Expected-value estimator (`live_signals.py`) -/

/-- `_bucket_midpoints`: `(midpoint, p_true)` for every bucket with a
defined `p_true`, sorted by midpoint (Python's stable `sorted`). -/
def _bucket_midpoints (bins : List CalBucket) : List (ℚ × ℚ) :=
  (bins.filterMap fun b =>
    match b.p_true with
    | none => none
    | some pt => some (b.bucket_low + (b.bucket_high - b.bucket_low) / 2, pt)
  ).mergeSort (fun a b => a.1 ≤ b.1)

/-- The scan over adjacent midpoint pairs in `estimate_p_true`:
first segment `[x₀, x₁]` containing `p` wins, interpolating linearly
(degenerate segment returns the left value). -/
def scanSegments (p : ℚ) : List (ℚ × ℚ) → Option ℚ
  | (x₀, y₀) :: (x₁, y₁) :: rest =>
      if x₀ ≤ p ∧ p ≤ x₁ then
        some (if x₁ = x₀ then y₀ else y₀ + (p - x₀) / (x₁ - x₀) * (y₁ - y₀))
      else scanSegments p ((x₁, y₁) :: rest)
  | _ => none

/-- `estimate_p_true` (`src/kalshi_edge/backtest/live_signals.py`):
`none` models the `RuntimeError` when no bucket has a defined `p_true`;
clamps to the endpoint values outside the covered midpoint range, else
linearly interpolates (with the code's fall-through to the last value). -/
def estimate_p_true (p_mkt : ℚ) (bins : List CalBucket) : Option ℚ :=
  match _bucket_midpoints bins with
  | [] => none
  | p₀ :: rest =>
      let pl := (p₀ :: rest).getLast (List.cons_ne_nil p₀ rest)
      if p_mkt ≤ p₀.1 then some p₀.2
      else if pl.1 ≤ p_mkt then some pl.2
      else some ((scanSegments p_mkt (p₀ :: rest)).getD pl.2)

/-! ## Signal generator probability lookup (`generate_signals.py`) -/

/-- Whether `_build_probability_lookup`'s inner loop can use a bucket:
both `p_mkt_avg` and `p_true` must be present. -/
def usableBucket (b : CalBucket) : Prop := b.p_mkt_avg ≠ none ∧ b.p_true ≠ none

instance (b : CalBucket) : Decidable (usableBucket b) := by
  unfold usableBucket; infer_instance

/-- The distance `abs(b["p_mkt_avg"] - p_mkt)` used by the closest-bucket
loop (0-defaulted on unusable buckets, which the loop skips). -/
def bucketDelta (p : ℚ) (b : CalBucket) : ℚ := |b.p_mkt_avg.getD 0 - p|

/-- The closest-bucket loop of `_build_probability_lookup`'s `lookup`:
track the best (strictly smaller) `|p_mkt_avg - p|` seen so far and the
`p_true` of that bucket. -/
def closestLoop (p : ℚ) : List CalBucket → Option ℚ → Option ℚ → Option ℚ
  | [], _, closest => closest
  | b :: rest, best_delta, closest =>
      match b.p_mkt_avg, b.p_true with
      | some avg, some pt =>
          let delta := |avg - p|
          match best_delta with
          | none => closestLoop p rest (some delta) (some pt)
          | some bd =>
              if delta < bd then closestLoop p rest (some delta) (some pt)
              else closestLoop p rest (some bd) closest
      | _, _ => closestLoop p rest best_delta closest

/-- The `lookup` closure returned by `_build_probability_lookup` when a
calibration result exists: `p_true` of the closest usable bucket,
identity if no bucket is usable. -/
def lookup_closest (buckets : List CalBucket) (p : ℚ) : ℚ :=
  (closestLoop p buckets none none).getD p

/-- `_build_probability_lookup`
(`src/kalshi_edge/signals/generate_signals.py`): identity when no
calibration result is cached, else the closest-bucket lookup. -/
def _build_probability_lookup (calib : Option (List CalBucket)) : ℚ → ℚ :=
  match calib with
  | none => fun p => p
  | some buckets => fun p => lookup_closest buckets p

/-! ## Signal generator eligibility pipeline (`generate_signals.py`) -/

/-- `str.lower()`, modelled characterwise. -/
def strLower (s : String) : String := ⟨s.data.map Char.toLower⟩

/-- `str.upper()`, modelled characterwise. -/
def strUpper (s : String) : String := ⟨s.data.map Char.toUpper⟩

/-- Substring containment, as Python's `in` on strings. -/
def strContains (hay needle : String) : Prop :=
  needle.toList <:+: hay.toList

instance (hay needle : String) : Decidable (strContains hay needle) := by
  unfold strContains; infer_instance

def EV_THRESHOLD_DEFAULT : ℚ := 2/100
def PRO_SPORTS_LONGSHOT_THRESHOLD : ℚ := 15/100
def PRO_SPORTS_CATEGORIES : List String :=
  ["sports", "nfl", "nba", "nhl", "football", "basketball", "hockey"]
def COLLEGE_LONGSHOT_THRESHOLD : ℚ := 2/100
def COLLEGE_CATEGORIES : List String := ["college", "ncaa", "ncaaf", "ncaab"]
/-- `COLLEGE_MIN_REMAINING = timedelta(hours=1)`, in seconds. -/
def COLLEGE_MIN_REMAINING : ℤ := 3600
def PRO_INPLAY_BAND_LOW : ℚ := 88/100
def PRO_INPLAY_BAND_HIGH : ℚ := 92/100
/-- `SPORTS_INPLAY_MAX_REMAINING = timedelta(minutes=30)`, in seconds. -/
def SPORTS_INPLAY_MAX_REMAINING : ℤ := 1800
def SPORT_TICKER_HINTS : List String :=
  ["NFL", "NBA", "NHL", "MLB", "EPL", "MLS", "NCAAF", "NCAAB", "START", "GAME"]
def WEATHER_MIN_P : ℚ := 3/100
/-- `EXPIRY_HARD_LIMIT_HOURS = 24`, in seconds. -/
def EXPIRY_HARD_LIMIT_SECONDS : ℤ := 24 * 3600

/-- A market metadata row joined to its latest price in `generate_signals`
(timestamps in epoch seconds). -/
structure MarketRow where
  market_id : String
  name : Option String
  category : Option String
  expiration_ts : Option ℤ
deriving Repr

/-- The per-market body of the `generate_signals` loop
(`src/kalshi_edge/signals/generate_signals.py`, lines 145-233), returning
the list of `(side, expected_value, forced)` candidates inserted for this
market.  `parseMarketDate` stands for `_parse_market_date` (regex date
token parsing), passed as an oracle; `p_true_fn` is the probability
lookup. -/
def generateForMarket (parseMarketDate : String → Option ℤ) (now : ℤ)
    (ev_threshold : ℚ) (p_true_fn : ℚ → ℚ) (row : MarketRow)
    (p_mkt : ℚ) : List (Side × ℚ × Bool) :=
  let p_true := p_true_fn p_mkt
  let ev_yes := p_true - p_mkt
  let ev_no := (1 - p_true) - (1 - p_mkt)
  let cat_lower := strLower (row.category.getD "")
  let ticker_upper := strUpper row.market_id
  let is_pro_sport := cat_lower ∈ PRO_SPORTS_CATEGORIES
  let is_college := cat_lower ∈ COLLEGE_CATEGORIES
  let is_sport_any := is_pro_sport ∨ is_college ∨ strContains cat_lower "sport"
    ∨ ∃ hint ∈ SPORT_TICKER_HINTS, strContains ticker_upper hint
  -- `info.get("name") or market_id` (empty string is falsy)
  let market_name := match row.name with
    | some s => if s = "" then row.market_id else s
    | none => row.market_id
  let parsed0 :=
    if is_sport_any then
      match parseMarketDate market_name with
      | some t => some t
      | none => parseMarketDate row.market_id
    else none
  let parsed_exp_ts := match parsed0 with
    | some t => if t < now then none else some t
    | none => none
  let exp_candidates := ([row.expiration_ts, parsed_exp_ts]).filterMap id
  let exp_ts := match exp_candidates with
    | [] => none
    | x :: xs => some (xs.foldl min x)
  let hard_cutoff := parsed_exp_ts.getD (now + EXPIRY_HARD_LIMIT_SECONDS)
  match exp_ts with
  | none => []
  | some ets =>
      if ets < now ∨ hard_cutoff < ets then []
      else
        -- Skip low-probability weather markets (<3%).
        if strContains cat_lower "weather" ∧ p_mkt < WEATHER_MIN_P
            ∧ p_true < WEATHER_MIN_P then []
        else
          -- Primary rule: only 88-92% band unless an explicit override applies.
          let allow_band := PRO_INPLAY_BAND_LOW ≤ p_mkt ∧ p_mkt ≤ PRO_INPLAY_BAND_HIGH
          let longshot_yes := is_pro_sport ∧ p_mkt ≤ PRO_SPORTS_LONGSHOT_THRESHOLD
          let longshot_college := is_college ∧ p_mkt ≤ COLLEGE_LONGSHOT_THRESHOLD
            ∧ COLLEGE_MIN_REMAINING ≤ ets - now
          let remaining := ets - now
          let pro_inplay_override := is_sport_any ∧ allow_band
            ∧ remaining ≤ SPORTS_INPLAY_MAX_REMAINING ∧ 0 < remaining
          if ¬(allow_band ∨ longshot_yes ∨ longshot_college ∨ pro_inplay_override)
          then []
          else
            (if allow_band then
              (if ev_threshold ≤ ev_no then [(Side.no, ev_no, false)] else [])
            else
              (if ev_threshold ≤ ev_yes then [(Side.yes, ev_yes, false)] else [])
              ++ (if ev_threshold ≤ ev_no then [(Side.no, ev_no, false)] else []))
            ++ (if longshot_yes then [(Side.yes, ev_yes, true)] else [])
            ++ (if longshot_college then [(Side.yes, ev_yes, true)] else [])
            ++ (if pro_inplay_override ∧ allow_band then [(Side.no, ev_no, true)] else [])

/-! ## Binary64 model of the sizing arithmetic -/

/-- Round a rational to the nearest IEEE-754 binary64 value (53-bit
significand, round-to-nearest ties-to-even, unbounded exponent range —
sufficient for the magnitudes arising in the sizing arithmetic). -/
def fpRound (q : ℚ) : ℚ :=
  if q = 0 then 0
  else
    let e : ℤ := Int.log 2 |q| - 52
    let m : ℚ := q / 2 ^ e
    let n : ℤ :=
      if Int.fract m = 1/2 then (if 2 ∣ ⌊m⌋ then ⌊m⌋ else ⌊m⌋ + 1)
      else round m
    (n : ℚ) * 2 ^ e

/-- `compute_order_size_for_signal` as executed by CPython on binary64
floats: the same algorithm with every inexact arithmetic operation rounded
by `fpRound` (the float `//` branch, not exercised here, keeps the exact
floor). -/
def compute_order_size_for_signal_fp (side : Side) (price bankroll : ℚ)
    (limits : RiskLimits) (per_market_risk total_risk fraction : ℚ) : ℤ × ℚ :=
  let risk_per_contract := match side with
    | .no => fpRound (1 - price)
    | .yes => price
  if risk_per_contract ≤ 0 then (0, risk_per_contract)
  else
    let per_trade_cap := min limits.max_risk_per_trade
      (fpRound (bankroll * fraction))
    let remaining_market := fpRound (limits.max_risk_per_market - per_market_risk)
    let remaining_total := fpRound (limits.max_risk_total - total_risk)
    let max_risk := min per_trade_cap (min remaining_market remaining_total)
    if max_risk ≤ 0 then (0, risk_per_contract)
    else
      let target_risk := min 3 max_risk
      let size0 : ℤ := ⌈fpRound (target_risk / risk_per_contract)⌉
      let size1 : ℤ :=
        if fpRound ((size0 : ℚ) * risk_per_contract) > max_risk
        then ⌊max_risk / risk_per_contract⌋ else size0
      if size1 ≤ 0 then (0, risk_per_contract)
      else (min size1 MAX_CONTRACTS_CAP, risk_per_contract)

/-- When the ceiling of `target/r` overshoots the cap `C`, the floor of
`C/r` is exactly that ceiling minus one. -/
lemma floor_div_eq_ceil_sub_one {r t C : ℚ} (hr : 0 < r) (htC : t ≤ C)
    (hgt : C < (⌈t / r⌉ : ℚ) * r) : ⌊C / r⌋ = ⌈t / r⌉ - 1 := by
  have h1 : C / r < (⌈t / r⌉ : ℚ) := (div_lt_iff₀ hr).mpr hgt
  have h2 : ((⌈t / r⌉ : ℚ) - 1) < t / r := by
    have := Int.ceil_lt_add_one (t / r)
    linarith
  have h3 : t / r ≤ C / r := by
    gcongr
  have h4 : ((⌈t / r⌉ - 1 : ℤ) : ℚ) ≤ C / r := by
    push_cast
    linarith
  refine Int.floor_eq_iff.mpr ⟨h4, ?_⟩
  push_cast
  linarith

/-- Full characterization of `compute_order_size_for_signal` under positive
per-contract risk and a positive binding cap (shared workhorse lemma). -/
lemma compute_order_size_spec_aux (side : Side) (price bankroll : ℚ)
    (limits : RiskLimits) (per_market_risk total_risk fraction : ℚ)
    (hr : 0 < sideRiskPerContract side price)
    (hC : 0 < bindingCap bankroll limits per_market_risk total_risk fraction) :
    compute_order_size_for_signal side price bankroll limits
        per_market_risk total_risk fraction
      = (min MAX_CONTRACTS_CAP
          (if (⌈(min 3 (bindingCap bankroll limits per_market_risk total_risk fraction))
                / sideRiskPerContract side price⌉ : ℚ)
              * sideRiskPerContract side price
              ≤ bindingCap bankroll limits per_market_risk total_risk fraction
           then ⌈(min 3 (bindingCap bankroll limits per_market_risk total_risk fraction))
                / sideRiskPerContract side price⌉
           else ⌈(min 3 (bindingCap bankroll limits per_market_risk total_risk fraction))
                / sideRiskPerContract side price⌉ - 1),
         sideRiskPerContract side price)
    ∧ ((compute_order_size_for_signal side price bankroll limits
          per_market_risk total_risk fraction).1 : ℚ)
        * sideRiskPerContract side price
      ≤ bindingCap bankroll limits per_market_risk total_risk fraction := by
  set r := sideRiskPerContract side price with hrdef
  set C := bindingCap bankroll limits per_market_risk total_risk fraction with hCdef
  set k : ℤ := ⌈min 3 C / r⌉ with hkdef
  have htpos : 0 < min 3 C := lt_min (by norm_num) hC
  have hkpos : 0 < k := Int.ceil_pos.mpr (div_pos htpos hr)
  have hmainEq :
      compute_order_size_for_signal side price bankroll limits
        per_market_risk total_risk fraction
      = (min MAX_CONTRACTS_CAP (if (k : ℚ) * r ≤ C then k else k - 1), r) := by
    simp only [compute_order_size_for_signal, ← hrdef, ← hCdef, ← hkdef]
    rw [if_neg (not_le.mpr hr), if_neg (not_le.mpr hC)]
    by_cases hcase : (k : ℚ) * r ≤ C
    · rw [if_neg (not_lt.mpr hcase), if_neg (not_le.mpr hkpos), if_pos hcase,
        min_comm]
    · have hlt : C < (k : ℚ) * r := not_le.mp hcase
      have hfl : ⌊C / r⌋ = k - 1 :=
        floor_div_eq_ceil_sub_one hr (min_le_right 3 C) hlt
      rw [if_pos hlt, hfl, if_neg hcase]
      by_cases hz : k - 1 ≤ 0
      · have hk1 : k = 1 := le_antisymm (by omega) hkpos
        rw [if_pos hz, hk1]
        norm_num [MAX_CONTRACTS_CAP]
      · rw [if_neg hz, min_comm]
  refine ⟨hmainEq, ?_⟩
  rw [hmainEq]
  by_cases hcase : (k : ℚ) * r ≤ C
  · rw [if_pos hcase]
    calc ((min MAX_CONTRACTS_CAP k : ℤ) : ℚ) * r
        ≤ (k : ℚ) * r := by
          apply mul_le_mul_of_nonneg_right _ hr.le
          exact_mod_cast min_le_right MAX_CONTRACTS_CAP k
      _ ≤ C := hcase
  · rw [if_neg hcase]
    have hlt : C < (k : ℚ) * r := not_le.mp hcase
    have hfl : ⌊C / r⌋ = k - 1 :=
      floor_div_eq_ceil_sub_one hr (min_le_right 3 C) hlt
    have hfloor : ((k - 1 : ℤ) : ℚ) * r ≤ C := by
      rw [← hfl]
      calc ((⌊C / r⌋ : ℤ) : ℚ) * r ≤ (C / r) * r := by
            apply mul_le_mul_of_nonneg_right (Int.floor_le _) hr.le
        _ = C := div_mul_cancel₀ C hr.ne'
    calc ((min MAX_CONTRACTS_CAP (k - 1) : ℤ) : ℚ) * r
        ≤ ((k - 1 : ℤ) : ℚ) * r := by
          apply mul_le_mul_of_nonneg_right _ hr.le
          exact_mod_cast min_le_right MAX_CONTRACTS_CAP (k - 1)
      _ ≤ C := hfloor

/-- **C3.** For every signal with per-contract risk `r > 0` and binding cap
`C = min(max_risk_per_trade, bankroll * risk_fraction, remaining per-market
headroom, remaining total headroom) > 0`, `compute_order_size_for_signal`
returns size `min 1000 ⌈min 3 C / r⌉` when that ceiling times `r` does not
exceed `C`, and otherwise that ceiling reduced by one; the returned size `s`
always satisfies `s * r ≤ C`. -/
theorem compute_order_size_cap_formula (side : Side) (price bankroll : ℚ)
    (limits : RiskLimits) (per_market_risk total_risk fraction : ℚ)
    (hr : 0 < sideRiskPerContract side price)
    (hC : 0 < bindingCap bankroll limits per_market_risk total_risk fraction) :
    compute_order_size_for_signal side price bankroll limits
        per_market_risk total_risk fraction
      = (min MAX_CONTRACTS_CAP
          (if (⌈(min 3 (bindingCap bankroll limits per_market_risk total_risk fraction))
                / sideRiskPerContract side price⌉ : ℚ)
              * sideRiskPerContract side price
              ≤ bindingCap bankroll limits per_market_risk total_risk fraction
           then ⌈(min 3 (bindingCap bankroll limits per_market_risk total_risk fraction))
                / sideRiskPerContract side price⌉
           else ⌈(min 3 (bindingCap bankroll limits per_market_risk total_risk fraction))
                / sideRiskPerContract side price⌉ - 1),
         sideRiskPerContract side price)
    ∧ ((compute_order_size_for_signal side price bankroll limits
          per_market_risk total_risk fraction).1 : ℚ)
        * sideRiskPerContract side price
      ≤ bindingCap bankroll limits per_market_risk total_risk fraction :=
  compute_order_size_spec_aux side price bankroll limits
    per_market_risk total_risk fraction hr hC

/-- Witness for C3 at the spec's own instance: only $2 of remaining
total-risk headroom and per-contract risk 1/2 gives size 4. -/
theorem compute_order_size_cap_formula_witness :
    (0 < sideRiskPerContract .yes (1/2)
      ∧ 0 < bindingCap 1000 ⟨50, 200, 30⟩ 0 28 (3/100))
    ∧ (compute_order_size_for_signal .yes (1/2) 1000
        ⟨50, 200, 30⟩ 0 28 (3/100)).1 = 4 := by
  have hr : 0 < sideRiskPerContract .yes (1/2) := by
    norm_num [sideRiskPerContract]
  have hC : 0 < bindingCap 1000 ⟨50, 200, 30⟩ 0 28 (3/100) := by
    norm_num [bindingCap]
  refine ⟨⟨hr, hC⟩, ?_⟩
  have h := (compute_order_size_cap_formula .yes (1/2) 1000
    ⟨50, 200, 30⟩ 0 28 (3/100) hr hC).1
  rw [h]
  norm_num [bindingCap, sideRiskPerContract, MAX_CONTRACTS_CAP]

/-- A positively sized signal implies positive per-contract risk and a
positive binding cap. -/
lemma compute_order_size_pos {side : Side} {price bankroll : ℚ}
    {limits : RiskLimits} {per_market_risk total_risk fraction : ℚ}
    (h : 0 < (compute_order_size_for_signal side price bankroll limits
      per_market_risk total_risk fraction).1) :
    0 < sideRiskPerContract side price
    ∧ 0 < bindingCap bankroll limits per_market_risk total_risk fraction := by
  simp only [compute_order_size_for_signal] at h
  split_ifs at h with h1 h2 h3 <;> simp_all

/-- The second component returned by `compute_order_size_for_signal` is
always the side-appropriate per-contract risk. -/
lemma compute_order_size_snd (side : Side) (price bankroll : ℚ)
    (limits : RiskLimits) (per_market_risk total_risk fraction : ℚ) :
    (compute_order_size_for_signal side price bankroll limits
      per_market_risk total_risk fraction).2 = sideRiskPerContract side price := by
  simp only [compute_order_size_for_signal]
  split_ifs <;> rfl

/-- Reading the per-market map after a bump. -/
lemma lookupRisk_bumpRisk (l : List (ℕ × ℚ)) (m : ℕ) (r : ℚ) (m' : ℕ) :
    lookupRisk (bumpRisk l m r) m' =
      if m' = m then lookupRisk l m' + r else lookupRisk l m' := by
  induction l with
  | nil =>
      by_cases hm : m' = m
      · subst hm
        simp [bumpRisk, lookupRisk]
      · simp [bumpRisk, lookupRisk, hm, Ne.symm hm]
  | cons kv rest ih =>
      obtain ⟨k, v⟩ := kv
      by_cases hk : k = m
      · subst hk
        by_cases hm : m' = k
        · subst hm
          simp [bumpRisk, lookupRisk]
        · simp [bumpRisk, lookupRisk, hm, Ne.symm hm]
      · by_cases hm : k = m'
        · subst hm
          simp [bumpRisk, lookupRisk, hk]
        · simp [bumpRisk, lookupRisk, hk, hm, ih]

/-- One `execute_signals` iteration never takes a guard-rejection branch,
keeps any dispatched trade within the per-trade cap, and preserves the
total and per-market cap invariants on the running risk state. -/
lemma execStep_spec (mode : ExecMode)
    (client : SignalRow → ℤ → Except String OrderResp) (limits : RiskLimits)
    (bankroll fraction : ℚ) (st : ExecState) (sig : SignalRow) :
    ((execStep mode client limits bankroll fraction st sig).1.outcome
        ≠ .perTradeCapExceeded
      ∧ (execStep mode client limits bankroll fraction st sig).1.outcome
        ≠ .perMarketCapExceeded
      ∧ (execStep mode client limits bankroll fraction st sig).1.outcome
        ≠ .totalCapExceeded)
    ∧ (∀ s r, (execStep mode client limits bankroll fraction st sig).1.outcome
        = .dispatched s r → (s : ℚ) * r ≤ limits.max_risk_per_trade)
    ∧ (st.total ≤ limits.max_risk_total →
        (execStep mode client limits bankroll fraction st sig).2.total
          ≤ limits.max_risk_total)
    ∧ ((∀ m, lookupRisk st.per_market m ≤ limits.max_risk_per_market) →
        ∀ m, lookupRisk
            (execStep mode client limits bankroll fraction st sig).2.per_market m
          ≤ limits.max_risk_per_market) := by
  simp only [execStep]
  by_cases hsz : (compute_order_size_for_signal sig.side sig.p_mkt bankroll limits
      (lookupRisk st.per_market sig.market) st.total fraction).1 ≤ 0
  · simp [if_pos hsz]
  · have hpos : 0 < (compute_order_size_for_signal sig.side sig.p_mkt bankroll
        limits (lookupRisk st.per_market sig.market) st.total fraction).1 :=
      lt_of_not_ge hsz
    obtain ⟨hr, hC⟩ := compute_order_size_pos hpos
    have hble := (compute_order_size_spec_aux sig.side sig.p_mkt bankroll limits
      (lookupRisk st.per_market sig.market) st.total fraction hr hC).2
    have hsnd := compute_order_size_snd sig.side sig.p_mkt bankroll limits
      (lookupRisk st.per_market sig.market) st.total fraction
    set sz := (compute_order_size_for_signal sig.side sig.p_mkt bankroll limits
      (lookupRisk st.per_market sig.market) st.total fraction).1 with hszdef
    set rpc := (compute_order_size_for_signal sig.side sig.p_mkt bankroll limits
      (lookupRisk st.per_market sig.market) st.total fraction).2 with hrpcdef
    set C := bindingCap bankroll limits (lookupRisk st.per_market sig.market)
      st.total fraction with hCdef
    have hrisk : rpc * (sz : ℚ) ≤ C := by
      rw [hsnd, mul_comm]
      exact hble
    have hCtrade : C ≤ limits.max_risk_per_trade := by
      rw [hCdef, bindingCap]
      exact le_trans (min_le_left _ _) (min_le_left _ _)
    have hCmkt : C ≤ limits.max_risk_per_market
        - lookupRisk st.per_market sig.market := by
      rw [hCdef, bindingCap]
      exact le_trans (min_le_right _ _) (min_le_left _ _)
    have hCtot : C ≤ limits.max_risk_total - st.total := by
      rw [hCdef, bindingCap]
      exact le_trans (min_le_right _ _) (min_le_right _ _)
    have h1 : ¬ limits.max_risk_per_trade < rpc * (sz : ℚ) :=
      not_lt.mpr (le_trans hrisk hCtrade)
    have h2 : ¬ limits.max_risk_per_market
        < lookupRisk st.per_market sig.market + rpc * (sz : ℚ) := by
      push_neg
      linarith
    have h3 : ¬ limits.max_risk_total < st.total + rpc * (sz : ℚ) := by
      push_neg
      linarith
    rw [if_neg hsz, if_neg h1, if_neg h2, if_neg h3]
    have hdisp : ∀ s r, Outcome.dispatched sz rpc = Outcome.dispatched s r →
        (s : ℚ) * r ≤ limits.max_risk_per_trade := by
      intro s r hsr
      rw [Outcome.dispatched.injEq] at hsr
      obtain ⟨hs, hrq⟩ := hsr
      subst hs
      subst hrq
      calc (sz : ℚ) * rpc = rpc * (sz : ℚ) := mul_comm _ _
        _ ≤ C := hrisk
        _ ≤ limits.max_risk_per_trade := hCtrade
    have htot' : st.total + rpc * (sz : ℚ) ≤ limits.max_risk_total := by
      linarith
    have hmkt' : (∀ m, lookupRisk st.per_market m ≤ limits.max_risk_per_market) →
        ∀ m, lookupRisk (bumpRisk st.per_market sig.market (rpc * (sz : ℚ))) m
          ≤ limits.max_risk_per_market := by
      intro hm m
      rw [lookupRisk_bumpRisk]
      by_cases hmm : m = sig.market
      · rw [if_pos hmm, hmm]
        linarith
      · rw [if_neg hmm]
        exact hm m
    cases mode with
    | simulate =>
        exact ⟨⟨by simp, by simp, by simp⟩, hdisp, fun _ => htot', hmkt'⟩
    | live =>
        cases hcl : client sig sz with
        | error e =>
            simp only [hcl]
            exact ⟨⟨by simp, by simp, by simp⟩, by simp, fun h => h, fun h => h⟩
        | ok resp =>
            simp only [hcl]
            exact ⟨⟨by simp, by simp, by simp⟩, hdisp, fun _ => htot', hmkt'⟩

/-- **C1.** During a single `execute_signals` batch, assuming the exposure
computed at batch start is within the configured caps, every dispatched
trade keeps the running in-memory exposure within the caps (per-trade,
per-market and total); equivalently, under exact arithmetic, no signal that
`compute_order_size_for_signal` sizes to a positive size is ever rejected
by the three subsequent guard checks. -/
theorem execute_signals_batch_within_caps (mode : ExecMode)
    (client : SignalRow → ℤ → Except String OrderResp) (limits : RiskLimits)
    (bankroll fraction : ℚ) (sigs : List SignalRow) (st : ExecState)
    (hTot : st.total ≤ limits.max_risk_total)
    (hMkt : ∀ m, lookupRisk st.per_market m ≤ limits.max_risk_per_market) :
    (∀ res ∈ (execBatch mode client limits bankroll fraction st sigs).1,
        res.outcome ≠ .perTradeCapExceeded
        ∧ res.outcome ≠ .perMarketCapExceeded
        ∧ res.outcome ≠ .totalCapExceeded
        ∧ ∀ s r, res.outcome = .dispatched s r →
            (s : ℚ) * r ≤ limits.max_risk_per_trade)
    ∧ (execBatch mode client limits bankroll fraction st sigs).2.total
        ≤ limits.max_risk_total
    ∧ ∀ m, lookupRisk
        (execBatch mode client limits bankroll fraction st sigs).2.per_market m
      ≤ limits.max_risk_per_market := by
  induction sigs generalizing st with
  | nil =>
      exact ⟨by simp [execBatch], by simpa [execBatch] using hTot,
        by simpa [execBatch] using hMkt⟩
  | cons sig rest ih =>
      obtain ⟨⟨hg1, hg2, hg3⟩, hd, hpt, hpm⟩ :=
        execStep_spec mode client limits bankroll fraction st sig
      obtain ⟨ih1, ih2, ih3⟩ :=
        ih (execStep mode client limits bankroll fraction st sig).2
          (hpt hTot) (hpm hMkt)
      refine ⟨?_, by simpa [execBatch] using ih2, by simpa [execBatch] using ih3⟩
      intro res hres
      simp only [execBatch, List.mem_cons] at hres
      rcases hres with hres | hres
      · subst hres
        exact ⟨hg1, hg2, hg3, hd⟩
      · exact ih1 res hres

/-- Witness for C1: a one-signal batch in simulate mode starting from an
empty exposure state under caps (50, 200, 500). -/
theorem execute_signals_batch_within_caps_witness :
    ((({ total := 0, per_market := [] } : ExecState).total
        ≤ (⟨50, 200, 500⟩ : RiskLimits).max_risk_total)
      ∧ ∀ m, lookupRisk ({ total := 0, per_market := [] } : ExecState).per_market m
          ≤ (⟨50, 200, 500⟩ : RiskLimits).max_risk_per_market)
    ∧ ((∀ res ∈ (execBatch .simulate (fun _ _ => .error "offline")
            ⟨50, 200, 500⟩ 1000 (3/100) { total := 0, per_market := [] }
            [{ id := 1, market := 7, side := .yes, p_mkt := 1/2, size := 1,
               status := "pending", created_at := 0, last_error := none,
               executed_price := none, executed_size := none }]).1,
          res.outcome ≠ .perTradeCapExceeded
          ∧ res.outcome ≠ .perMarketCapExceeded
          ∧ res.outcome ≠ .totalCapExceeded
          ∧ ∀ s r, res.outcome = .dispatched s r →
              (s : ℚ) * r ≤ (⟨50, 200, 500⟩ : RiskLimits).max_risk_per_trade)
      ∧ (execBatch .simulate (fun _ _ => .error "offline")
            ⟨50, 200, 500⟩ 1000 (3/100) { total := 0, per_market := [] }
            [{ id := 1, market := 7, side := .yes, p_mkt := 1/2, size := 1,
               status := "pending", created_at := 0, last_error := none,
               executed_price := none, executed_size := none }]).2.total
          ≤ (⟨50, 200, 500⟩ : RiskLimits).max_risk_total
      ∧ ∀ m, lookupRisk (execBatch .simulate (fun _ _ => .error "offline")
            ⟨50, 200, 500⟩ 1000 (3/100) { total := 0, per_market := [] }
            [{ id := 1, market := 7, side := .yes, p_mkt := 1/2, size := 1,
               status := "pending", created_at := 0, last_error := none,
               executed_price := none, executed_size := none }]).2.per_market m
          ≤ (⟨50, 200, 500⟩ : RiskLimits).max_risk_per_market) := by
  have h1 : (({ total := 0, per_market := [] } : ExecState).total
      ≤ (⟨50, 200, 500⟩ : RiskLimits).max_risk_total) := by norm_num
  have h2 : ∀ m, lookupRisk ({ total := 0, per_market := [] } : ExecState).per_market m
      ≤ (⟨50, 200, 500⟩ : RiskLimits).max_risk_per_market := by
    intro m
    simp [lookupRisk]
  exact ⟨⟨h1, h2⟩, execute_signals_batch_within_caps .simulate
    (fun _ _ => .error "offline") ⟨50, 200, 500⟩ 1000 (3/100) _ _ h1 h2⟩

/-- **C8.** In live mode, if order submission for a signal raises, the
`execute_signals` loop marks exactly that signal `error` with the exception
text, records no trade for it, leaves the running risk counters untouched,
and continues with the remaining signals of the batch (the signal is not
reset to pending). -/
theorem execute_live_submit_error
    (client : SignalRow → ℤ → Except String OrderResp) (limits : RiskLimits)
    (bankroll fraction : ℚ) (st : ExecState) (sig : SignalRow)
    (rest : List SignalRow) (e : String)
    (hpos : 0 < (compute_order_size_for_signal sig.side sig.p_mkt bankroll limits
      (lookupRisk st.per_market sig.market) st.total fraction).1)
    (herr : client sig (compute_order_size_for_signal sig.side sig.p_mkt bankroll
      limits (lookupRisk st.per_market sig.market) st.total fraction).1
      = .error e) :
    execStep .live client limits bankroll fraction st sig
      = ({ id := sig.id, status := "error", error := some e,
           executed_price := none, executed_size := none, trade := none,
           outcome := .submitError e }, st)
    ∧ (execBatch .live client limits bankroll fraction st (sig :: rest)).1
      = { id := sig.id, status := "error", error := some e,
          executed_price := none, executed_size := none, trade := none,
          outcome := .submitError e }
        :: (execBatch .live client limits bankroll fraction st rest).1 := by
  have hstep : execStep .live client limits bankroll fraction st sig
      = ({ id := sig.id, status := "error", error := some e,
           executed_price := none, executed_size := none, trade := none,
           outcome := .submitError e }, st) := by
    simp only [execStep]
    have hsz : ¬ (compute_order_size_for_signal sig.side sig.p_mkt bankroll limits
        (lookupRisk st.per_market sig.market) st.total fraction).1 ≤ 0 :=
      not_le.mpr hpos
    obtain ⟨hr, hC⟩ := compute_order_size_pos hpos
    have hble := (compute_order_size_spec_aux sig.side sig.p_mkt bankroll limits
      (lookupRisk st.per_market sig.market) st.total fraction hr hC).2
    have hsnd := compute_order_size_snd sig.side sig.p_mkt bankroll limits
      (lookupRisk st.per_market sig.market) st.total fraction
    set sz := (compute_order_size_for_signal sig.side sig.p_mkt bankroll limits
      (lookupRisk st.per_market sig.market) st.total fraction).1 with hszdef
    set rpc := (compute_order_size_for_signal sig.side sig.p_mkt bankroll limits
      (lookupRisk st.per_market sig.market) st.total fraction).2 with hrpcdef
    set C := bindingCap bankroll limits (lookupRisk st.per_market sig.market)
      st.total fraction with hCdef
    have hrisk : rpc * (sz : ℚ) ≤ C := by
      rw [hsnd, mul_comm]
      exact hble
    have hCtrade : C ≤ limits.max_risk_per_trade := by
      rw [hCdef, bindingCap]
      exact le_trans (min_le_left _ _) (min_le_left _ _)
    have hCmkt : C ≤ limits.max_risk_per_market
        - lookupRisk st.per_market sig.market := by
      rw [hCdef, bindingCap]
      exact le_trans (min_le_right _ _) (min_le_left _ _)
    have hCtot : C ≤ limits.max_risk_total - st.total := by
      rw [hCdef, bindingCap]
      exact le_trans (min_le_right _ _) (min_le_right _ _)
    have h1 : ¬ limits.max_risk_per_trade < rpc * (sz : ℚ) :=
      not_lt.mpr (le_trans hrisk hCtrade)
    have h2 : ¬ limits.max_risk_per_market
        < lookupRisk st.per_market sig.market + rpc * (sz : ℚ) := by
      push_neg
      linarith
    have h3 : ¬ limits.max_risk_total < st.total + rpc * (sz : ℚ) := by
      push_neg
      linarith
    rw [if_neg hsz, if_neg h1, if_neg h2, if_neg h3, herr]
  refine ⟨hstep, ?_⟩
  simp only [execBatch, hstep]

/-- Witness for C8: a concrete live-mode batch whose client refuses the
order; the signal ends in `error` and the loop continues. -/
theorem execute_live_submit_error_witness :
    (0 < (compute_order_size_for_signal Side.yes (1/2) 1000 ⟨50, 200, 500⟩
        (lookupRisk ([] : List (ℕ × ℚ)) 7) 0 (3/100)).1
      ∧ (fun (_ : SignalRow) (_ : ℤ) =>
          (Except.error "connection refused" : Except String OrderResp))
          { id := 1, market := 7, side := .yes, p_mkt := 1/2, size := 1,
            status := "pending", created_at := 0, last_error := none,
            executed_price := none, executed_size := none }
          (compute_order_size_for_signal Side.yes (1/2) 1000 ⟨50, 200, 500⟩
            (lookupRisk ([] : List (ℕ × ℚ)) 7) 0 (3/100)).1
        = .error "connection refused")
    ∧ execStep .live
        (fun _ _ => (Except.error "connection refused" : Except String OrderResp))
        ⟨50, 200, 500⟩ 1000 (3/100) { total := 0, per_market := [] }
        { id := 1, market := 7, side := .yes, p_mkt := 1/2, size := 1,
          status := "pending", created_at := 0, last_error := none,
          executed_price := none, executed_size := none }
      = ({ id := 1, status := "error", error := some "connection refused",
           executed_price := none, executed_size := none, trade := none,
           outcome := .submitError "connection refused" },
         { total := 0, per_market := [] }) := by
  have hpos : 0 < (compute_order_size_for_signal Side.yes (1/2) 1000
      ⟨50, 200, 500⟩ (lookupRisk ([] : List (ℕ × ℚ)) 7) 0 (3/100)).1 := by
    norm_num [compute_order_size_for_signal, sideRiskPerContract, bindingCap,
      lookupRisk, MAX_CONTRACTS_CAP]
  refine ⟨⟨hpos, rfl⟩, ?_⟩
  exact (execute_live_submit_error
    (fun _ _ => (Except.error "connection refused" : Except String OrderResp))
    ⟨50, 200, 500⟩ 1000 (3/100) { total := 0, per_market := [] }
    { id := 1, market := 7, side := .yes, p_mkt := 1/2, size := 1,
      status := "pending", created_at := 0, last_error := none,
      executed_price := none, executed_size := none } [] "connection refused"
    hpos rfl).1

/-- **C6 counterexample.** The claim says a signal in status `simulated`
(no listed outgoing transition) never has its status changed by any
operation; but the dashboard bulk cancel (and likewise the stale sweep)
moves `simulated` rows to `cancelled`. -/
theorem signal_status_sticky_counterexample :
    ({ id := 1, market := 7, side := Side.yes, p_mkt := 1/2, size := 1,
       status := "simulated", created_at := 0, last_error := none,
       executed_price := some (1/2), executed_size := some 1 } : SignalRow).status
      = "simulated"
    ∧ (cancelOpenRow
        { id := 1, market := 7, side := Side.yes, p_mkt := 1/2, size := 1,
          status := "simulated", created_at := 0, last_error := none,
          executed_price := some (1/2), executed_size := some 1 }).status
      = "cancelled"
    ∧ (cancelOpenRow
        { id := 1, market := 7, side := Side.yes, p_mkt := 1/2, size := 1,
          status := "simulated", created_at := 0, last_error := none,
          executed_price := some (1/2), executed_size := some 1 }).status
      ≠ "simulated" := by
  refine ⟨rfl, ?_, ?_⟩ <;> simp [cancelOpenRow, OPEN_STATUSES]

/-- **C6 (amended).** Signal status changes follow the transition set
actually implemented: `execute_signals` processes only `pending` rows and
assigns one of `ignored`, `simulated`, the venue-reported status (default
`sent`), or `error`; the stale sweep and the dashboard bulk cancel move any
of the open statuses `pending`, `resting`, `sent`, `simulated` (and only
those) to `cancelled`; rows in `ignored`, `error`, `cancelled` or `filled`
are never touched by either sweep. -/
theorem signal_status_transitions_amended :
    (∀ (cutoff : ℤ) (row : SignalRow),
        (cancelStaleRow cutoff row).status = row.status
        ∨ (row.status ∈ OPEN_STATUSES
            ∧ (cancelStaleRow cutoff row).status = "cancelled"))
    ∧ (∀ (cutoff : ℤ) (row : SignalRow),
        row.status ∈ ["ignored", "error", "cancelled", "filled"] →
          cancelStaleRow cutoff row = row)
    ∧ (∀ row : SignalRow,
        (cancelOpenRow row).status = row.status
        ∨ (row.status ∈ OPEN_STATUSES ∧ (cancelOpenRow row).status = "cancelled"))
    ∧ (∀ row : SignalRow,
        row.status ∈ ["ignored", "error", "cancelled", "filled"] →
          cancelOpenRow row = row)
    ∧ (∀ (limit : ℕ) (table : List SignalRow) (row : SignalRow),
        row ∈ fetch_pending_signals limit table → row.status = "pending")
    ∧ (∀ (mode : ExecMode) (client : SignalRow → ℤ → Except String OrderResp)
        (limits : RiskLimits) (bankroll fraction : ℚ) (st : ExecState)
        (sig : SignalRow),
        (∀ s n r, client s n = .ok r → r.status = none ∨ r.status = some "sent") →
          (execStep mode client limits bankroll fraction st sig).1.status
            ∈ ["ignored", "simulated", "sent", "error"]) := by
  refine ⟨?_, ?_, ?_, ?_, ?_, ?_⟩
  · intro cutoff row
    unfold cancelStaleRow
    split_ifs with h
    · exact Or.inr ⟨h.1, rfl⟩
    · exact Or.inl rfl
  · intro cutoff row hmem
    unfold cancelStaleRow
    rw [if_neg]
    rintro ⟨hopen, -⟩
    simp only [List.mem_cons, List.not_mem_nil, or_false] at hmem
    rcases hmem with h | h | h | h <;> rw [h] at hopen <;> revert hopen <;> decide
  · intro row
    unfold cancelOpenRow
    split_ifs with h
    · exact Or.inr ⟨h, rfl⟩
    · exact Or.inl rfl
  · intro row hmem
    unfold cancelOpenRow
    rw [if_neg]
    intro hopen
    simp only [List.mem_cons, List.not_mem_nil, or_false] at hmem
    rcases hmem with h | h | h | h <;> rw [h] at hopen <;> revert hopen <;> decide
  · intro limit table row hrow
    unfold fetch_pending_signals at hrow
    have h1 := List.take_subset _ _ hrow
    have h2 := (List.mergeSort_perm
      (table.filter (fun r => r.status = "pending")) _).subset h1
    have h3 := List.mem_filter.mp h2
    exact of_decide_eq_true h3.2
  · intro mode client limits bankroll fraction st sig hclient
    simp only [execStep]
    split_ifs with h1 h2 h3 h4
    · simp
    · simp
    · simp
    · simp
    · cases mode with
      | simulate => simp
      | live =>
          cases hcl : client sig (compute_order_size_for_signal sig.side
              sig.p_mkt bankroll limits (lookupRisk st.per_market sig.market)
              st.total fraction).1 with
          | error e => simp
          | ok resp =>
              rcases hclient _ _ _ hcl with hs | hs <;> simp [hs]

/-- Witness for C6 (amended): the sweep leaves an `error` row unchanged,
and a live step whose client reports no status ends in the allowed set. -/
theorem signal_status_transitions_amended_witness :
    (({ id := 2, market := 7, side := Side.yes, p_mkt := 1/2, size := 1,
        status := "error", created_at := 0, last_error := some "boom",
        executed_price := none, executed_size := none } : SignalRow).status
      ∈ ["ignored", "error", "cancelled", "filled"])
    ∧ cancelStaleRow 100
        { id := 2, market := 7, side := Side.yes, p_mkt := 1/2, size := 1,
          status := "error", created_at := 0, last_error := some "boom",
          executed_price := none, executed_size := none }
      = { id := 2, market := 7, side := Side.yes, p_mkt := 1/2, size := 1,
          status := "error", created_at := 0, last_error := some "boom",
          executed_price := none, executed_size := none } := by
  refine ⟨?_, signal_status_transitions_amended.2.1 100 _ ?_⟩ <;> simp

/-- **C7 counterexample.** The claim says realized PnL on a position row is
never overwritten or discarded by any operation that writes the positions
table; but `sync_positions` truncates the table before re-inserting the
venue snapshot, so a row holding accumulated realized PnL 7 is discarded
(here: venue reports no positions and the table comes back empty). -/
theorem position_realized_discarded_counterexample :
    sync_positions []
      [{ market := 5, side := Side.yes, size := 10, avg_entry_price := 1/5,
         realized_pnl := 7 }] = []
    ∧ ({ market := 5, side := Side.yes, size := 10, avg_entry_price := 1/5,
         realized_pnl := 7 } : PositionTableRow).realized_pnl = 7 :=
  ⟨rfl, rfl⟩

/-- **C7 (amended).** On a partial close (`record_trade` delta opposing the
position's sign with strictly smaller magnitude) `_update_position` leaves
the average entry price unchanged, and `_update_position` always adds a
trade-determined increment to the accumulated realized PnL (the increment
does not depend on the accumulated value, which is never overwritten);
however `sync_positions` rebuilds the positions table from the venue
snapshot with realized PnL reset, so "never discarded" holds only for the
trade-recording path, not for the portfolio sync. -/
theorem position_ledger_amended :
    (∀ (p : PositionRow) (side : Side) (size_delta : ℤ) (price : ℚ),
        ((0 < p.size ∧ size_delta < 0) ∨ (p.size < 0 ∧ 0 < size_delta)) →
        |size_delta| < |p.size| →
        (update_position (some p) side size_delta price).avg_entry_price
          = p.avg_entry_price)
    ∧ (∀ (p : PositionRow) (side : Side) (size_delta : ℤ) (price r' : ℚ),
        (update_position (some { p with realized_pnl := r' }) side size_delta
            price).realized_pnl - r'
        = (update_position (some p) side size_delta price).realized_pnl
          - p.realized_pnl)
    ∧ (∀ (venue : List VenuePos) (table : List PositionTableRow),
        ∀ row ∈ sync_positions venue table, row.realized_pnl = 0) := by
  refine ⟨?_, ?_, ?_⟩
  · intro p side size_delta price hsign hmag
    have hnotsame : ¬ ((0 ≤ p.size ∧ 0 ≤ size_delta)
        ∨ (p.size ≤ 0 ∧ size_delta ≤ 0)) := by
      rcases hsign with ⟨h1, h2⟩ | ⟨h1, h2⟩ <;> omega
    have hnotflip : ¬ (|p.size| < |size_delta|) := not_lt.mpr hmag.le
    simp only [update_position, Option.map_some', Option.getD_some]
    rw [if_neg hnotsame, if_neg hnotflip]
  · intro p side size_delta price r'
    simp only [update_position, Option.map_some', Option.getD_some]
    split_ifs <;> ring
  · intro venue table row hrow
    simp only [sync_positions, List.mem_filterMap] at hrow
    obtain ⟨pos, _, hpos⟩ := hrow
    rcases pos with ⟨t, c, cost⟩
    cases t <;> cases c <;> cases cost <;> simp_all
    rw [← hpos.2]

/-- Witness for C7 (amended): selling 4 of a 10-lot YES position leaves the
average entry price at 1/5. -/
theorem position_ledger_amended_witness :
    (((0 < (10:ℤ) ∧ (-4:ℤ) < 0) ∨ ((10:ℤ) < 0 ∧ (0:ℤ) < -4))
      ∧ |(-4:ℤ)| < |(10:ℤ)|)
    ∧ (update_position
        (some { size := 10, avg_entry_price := 1/5, realized_pnl := 7 })
        Side.yes (-4) (9/10)).avg_entry_price = 1/5 := by
  have h1 : ((0 < (10:ℤ) ∧ (-4:ℤ) < 0) ∨ ((10:ℤ) < 0 ∧ (0:ℤ) < -4)) := by
    left
    omega
  have h2 : |(-4:ℤ)| < |(10:ℤ)| := by decide
  exact ⟨⟨h1, h2⟩, position_ledger_amended.1
    { size := 10, avg_entry_price := 1/5, realized_pnl := 7 }
    Side.yes (-4) (9/10) h1 h2⟩

/-- **C10.** `generate_signals` never inserts a signal for a market whose
category contains the substring `"weather"` when both the observed market
price and the estimated true probability are below 0.03: the per-market
candidate list is empty regardless of expected values, expiry window and
band/override gates. -/
theorem generate_signals_weather_filter (parseMarketDate : String → Option ℤ)
    (now : ℤ) (ev_threshold : ℚ) (p_true_fn : ℚ → ℚ) (row : MarketRow)
    (p_mkt : ℚ)
    (hw : strContains (strLower (row.category.getD "")) "weather")
    (hp : p_mkt < WEATHER_MIN_P) (hpt : p_true_fn p_mkt < WEATHER_MIN_P) :
    generateForMarket parseMarketDate now ev_threshold p_true_fn row p_mkt
      = [] := by
  simp only [generateForMarket]
  split
  · rfl
  · split_ifs <;> simp_all

/-- Witness for C10: a concrete in-window weather market priced at 0.01
with estimated probability 0.02 yields no candidates. -/
theorem generate_signals_weather_filter_witness :
    (strContains (strLower (({ market_id := "WTEMP",
                               name := some "High temp",
                               category := some "Weather",
                               expiration_ts := some 3600 }
            : MarketRow).category.getD "")) "weather"
      ∧ (1/100 : ℚ) < WEATHER_MIN_P
      ∧ (fun _ : ℚ => (2/100 : ℚ)) (1/100) < WEATHER_MIN_P)
    ∧ generateForMarket (fun _ => none) 0 EV_THRESHOLD_DEFAULT
        (fun _ => (2/100 : ℚ))
        { market_id := "WTEMP",
          name := some "High temp",
          category := some "Weather",
          expiration_ts := some 3600 }
        (1/100) = [] := by
  have hw : strContains (strLower (({ market_id := "WTEMP",
                                      name := some "High temp",
                                      category := some "Weather",
                                      expiration_ts := some 3600 }
      : MarketRow).category.getD "")) "weather" := by
    show "weather".toList <:+: (strLower "Weather").toList
    have h : strLower "Weather" = "weather" := by decide
    rw [h]
  have hp : (1/100 : ℚ) < WEATHER_MIN_P := by norm_num [WEATHER_MIN_P]
  have hpt : (fun _ : ℚ => (2/100 : ℚ)) (1/100) < WEATHER_MIN_P := by
    norm_num [WEATHER_MIN_P]
  exact ⟨⟨hw, hp, hpt⟩, generate_signals_weather_filter (fun _ => none) 0
    EV_THRESHOLD_DEFAULT (fun _ => (2/100 : ℚ)) _ (1/100) hw hp hpt⟩

/-- Fold invariant for the closest-bucket loop, started from a candidate at
distance `d` with value `y`: the result is either the unbeaten start value,
or the `p_true` of a strictly closer bucket that is minimal over the
remaining list. -/
lemma closestLoop_min (p : ℚ) :
    ∀ (bs : List CalBucket) (d y : ℚ),
      ∃ z, closestLoop p bs (some d) (some y) = some z
        ∧ ((z = y ∧ ∀ b ∈ bs, usableBucket b → d ≤ bucketDelta p b)
          ∨ (∃ b ∈ bs, usableBucket b ∧ z = b.p_true.getD 0
              ∧ bucketDelta p b < d
              ∧ ∀ b' ∈ bs, usableBucket b' →
                  bucketDelta p b ≤ bucketDelta p b')) := by
  intro bs
  induction bs with
  | nil =>
      intro d y
      exact ⟨y, rfl, Or.inl ⟨rfl, by simp⟩⟩
  | cons b rest ih =>
      intro d y
      cases havg : b.p_mkt_avg with
      | none =>
          obtain ⟨z, hz, hca⟩ := ih d y
          refine ⟨z, ?_, ?_⟩
          · simpa [closestLoop, havg] using hz
          · rcases hca with ⟨hzy, hall⟩ | ⟨b', hb', hu', hz', hlt', hmin'⟩
            · refine Or.inl ⟨hzy, ?_⟩
              intro b'' hb'' hu''
              rcases List.mem_cons.mp hb'' with h | h
              · exact absurd hu'' (by simp [usableBucket, h, havg])
              · exact hall b'' h hu''
            · refine Or.inr ⟨b', List.mem_cons_of_mem _ hb', hu', hz', hlt', ?_⟩
              intro b'' hb'' hu''
              rcases List.mem_cons.mp hb'' with h | h
              · exact absurd hu'' (by simp [usableBucket, h, havg])
              · exact hmin' b'' h hu''
      | some avg =>
          cases hpt : b.p_true with
          | none =>
              obtain ⟨z, hz, hca⟩ := ih d y
              refine ⟨z, ?_, ?_⟩
              · simpa [closestLoop, havg, hpt] using hz
              · rcases hca with ⟨hzy, hall⟩ | ⟨b', hb', hu', hz', hlt', hmin'⟩
                · refine Or.inl ⟨hzy, ?_⟩
                  intro b'' hb'' hu''
                  rcases List.mem_cons.mp hb'' with h | h
                  · exact absurd hu'' (by simp [usableBucket, h, hpt])
                  · exact hall b'' h hu''
                · refine Or.inr ⟨b', List.mem_cons_of_mem _ hb', hu', hz', hlt', ?_⟩
                  intro b'' hb'' hu''
                  rcases List.mem_cons.mp hb'' with h | h
                  · exact absurd hu'' (by simp [usableBucket, h, hpt])
                  · exact hmin' b'' h hu''
          | some pt =>
              have hdelta : bucketDelta p b = |avg - p| := by
                simp [bucketDelta, havg]
              by_cases hlt : |avg - p| < d
              · obtain ⟨z, hz, hca⟩ := ih (|avg - p|) pt
                refine ⟨z, ?_, ?_⟩
                · simpa [closestLoop, havg, hpt, hlt] using hz
                · rcases hca with ⟨hzy, hall⟩ | ⟨b', hb', hu', hz', hlt', hmin'⟩
                  · refine Or.inr ⟨b, List.mem_cons_self _ _,
                      by simp [usableBucket, havg, hpt], by simp [hzy, hpt],
                      by rw [hdelta]; exact hlt, ?_⟩
                    intro b'' hb'' hu''
                    rcases List.mem_cons.mp hb'' with h | h
                    · rw [h]
                    · rw [hdelta]
                      exact hall b'' h hu''
                  · refine Or.inr ⟨b', List.mem_cons_of_mem _ hb', hu', hz',
                      lt_trans hlt' hlt, ?_⟩
                    intro b'' hb'' hu''
                    rcases List.mem_cons.mp hb'' with h | h
                    · rw [h, hdelta]
                      exact le_of_lt hlt'
                    · exact hmin' b'' h hu''
              · obtain ⟨z, hz, hca⟩ := ih d y
                refine ⟨z, ?_, ?_⟩
                · simpa [closestLoop, havg, hpt, hlt] using hz
                · rcases hca with ⟨hzy, hall⟩ | ⟨b', hb', hu', hz', hlt', hmin'⟩
                  · refine Or.inl ⟨hzy, ?_⟩
                    intro b'' hb'' hu''
                    rcases List.mem_cons.mp hb'' with h | h
                    · rw [h, hdelta]
                      exact not_lt.mp hlt
                    · exact hall b'' h hu''
                  · refine Or.inr ⟨b', List.mem_cons_of_mem _ hb', hu', hz', hlt', ?_⟩
                    intro b'' hb'' hu''
                    rcases List.mem_cons.mp hb'' with h | h
                    · rw [h, hdelta]
                      exact le_of_lt (lt_of_lt_of_le hlt' (not_lt.mp hlt))
                    · exact hmin' b'' h hu''

/-- Characterization of the closest-bucket loop started empty: it returns
nothing when no bucket is usable, else the `p_true` of a usable bucket with
minimal distance to `p`. -/
lemma closestLoop_start (p : ℚ) :
    ∀ bs : List CalBucket,
      ((∀ b ∈ bs, ¬ usableBucket b) ∧ closestLoop p bs none none = none)
      ∨ (∃ z, closestLoop p bs none none = some z
          ∧ ∃ b ∈ bs, usableBucket b ∧ z = b.p_true.getD 0
            ∧ ∀ b' ∈ bs, usableBucket b' →
                bucketDelta p b ≤ bucketDelta p b') := by
  intro bs
  induction bs with
  | nil => exact Or.inl ⟨by simp, rfl⟩
  | cons b rest ih =>
      cases havg : b.p_mkt_avg with
      | none =>
          rcases ih with ⟨hall, hnone⟩ | ⟨z, hz, b', hb', hu', hz', hmin'⟩
          · refine Or.inl ⟨?_, by simpa [closestLoop, havg] using hnone⟩
            intro b'' hb''
            rcases List.mem_cons.mp hb'' with h | h
            · simp [usableBucket, h, havg]
            · exact hall b'' h
          · refine Or.inr ⟨z, by simpa [closestLoop, havg] using hz,
              b', List.mem_cons_of_mem _ hb', hu', hz', ?_⟩
            intro b'' hb'' hu''
            rcases List.mem_cons.mp hb'' with h | h
            · exact absurd hu'' (by simp [usableBucket, h, havg])
            · exact hmin' b'' h hu''
      | some avg =>
          cases hpt : b.p_true with
          | none =>
              rcases ih with ⟨hall, hnone⟩ | ⟨z, hz, b', hb', hu', hz', hmin'⟩
              · refine Or.inl ⟨?_, by simpa [closestLoop, havg, hpt] using hnone⟩
                intro b'' hb''
                rcases List.mem_cons.mp hb'' with h | h
                · simp [usableBucket, h, hpt]
                · exact hall b'' h
              · refine Or.inr ⟨z, by simpa [closestLoop, havg, hpt] using hz,
                  b', List.mem_cons_of_mem _ hb', hu', hz', ?_⟩
                intro b'' hb'' hu''
                rcases List.mem_cons.mp hb'' with h | h
                · exact absurd hu'' (by simp [usableBucket, h, hpt])
                · exact hmin' b'' h hu''
          | some pt =>
              have hdelta : bucketDelta p b = |avg - p| := by
                simp [bucketDelta, havg]
              obtain ⟨z, hz, hca⟩ := closestLoop_min p rest (|avg - p|) pt
              refine Or.inr ⟨z, by simpa [closestLoop, havg, hpt] using hz, ?_⟩
              rcases hca with ⟨hzy, hall⟩ | ⟨b', hb', hu', hz', hlt', hmin'⟩
              · refine ⟨b, List.mem_cons_self _ _,
                  by simp [usableBucket, havg, hpt], by simp [hzy, hpt], ?_⟩
                intro b'' hb'' hu''
                rcases List.mem_cons.mp hb'' with h | h
                · rw [h]
                · rw [hdelta]
                  exact hall b'' h hu''
              · refine ⟨b', List.mem_cons_of_mem _ hb', hu', hz', ?_⟩
                intro b'' hb'' hu''
                rcases List.mem_cons.mp hb'' with h | h
                · rw [h, hdelta]
                  exact le_of_lt hlt'
                · exact hmin' b'' h hu''

/-- **C2 counterexample.** The Signal Generator's probability lookup is a
nearest-`p_mkt_avg` bucket selection, not the Estimator's linear
interpolation over bucket midpoints: on two buckets with `p_true` 0.1 and
0.9 and a price equidistant from both `p_mkt_avg` values, the lookup
returns 0.1 while `estimate_p_true` returns 0.5. -/
theorem probability_lookup_counterexample :
    _build_probability_lookup
        (some [⟨0, 1/2, 1, 0, 0, some (1/5), some (1/10)⟩,
               ⟨1/2, 1, 1, 1, 0, some (4/5), some (9/10)⟩]) (1/2) = 1/10
    ∧ estimate_p_true (1/2)
        [⟨0, 1/2, 1, 0, 0, some (1/5), some (1/10)⟩,
         ⟨1/2, 1, 1, 1, 0, some (4/5), some (9/10)⟩] = some (1/2)
    ∧ (1/10 : ℚ) ≠ (1/2 : ℚ) := by
  refine ⟨?_, ?_, by norm_num⟩
  · show lookup_closest _ _ = _
    have h1 : |(1:ℚ)/5 - 1/2| = 3/10 := by
      rw [abs_of_nonpos (by norm_num)]
      norm_num
    have h2 : |(4:ℚ)/5 - 1/2| = 3/10 := by
      rw [abs_of_nonneg (by norm_num)]
      norm_num
    simp only [lookup_closest, closestLoop, h1, h2]
    norm_num
  · have hmid : _bucket_midpoints
        [⟨0, 1/2, 1, 0, 0, some (1/5), some (1/10)⟩,
         ⟨1/2, 1, 1, 1, 0, some (4/5), some (9/10)⟩]
        = [((1:ℚ)/4, (1:ℚ)/10), ((3:ℚ)/4, (9:ℚ)/10)] := by
      unfold _bucket_midpoints
      have hfm : List.filterMap
          (fun b : CalBucket =>
            match b.p_true with
            | none => none
            | some pt =>
                some (b.bucket_low + (b.bucket_high - b.bucket_low) / 2, pt))
          [⟨0, 1/2, 1, 0, 0, some (1/5), some (1/10)⟩,
           ⟨1/2, 1, 1, 1, 0, some (4/5), some (9/10)⟩]
          = [((1:ℚ)/4, (1:ℚ)/10), ((3:ℚ)/4, (9:ℚ)/10)] := by
        norm_num [List.filterMap]
      rw [hfm]
      apply List.mergeSort_of_sorted
      simp
      norm_num
    simp only [estimate_p_true, hmid]
    norm_num [List.getLast, scanSegments]

/-- **C2 (amended).** The Signal Generator's probability lookup equals the
identity mapping exactly when no calibration result exists; when one
exists it returns the `p_true` of a usable bucket (both `p_mkt_avg` and
`p_true` present) whose `|p_mkt_avg - p|` is minimal over all usable
buckets (identity again when no bucket is usable) — a nearest-bucket
scheme, not the Estimator's midpoint interpolation. -/
theorem probability_lookup_amended :
    (∀ p : ℚ, _build_probability_lookup none p = p)
    ∧ (∀ (buckets : List CalBucket) (p : ℚ),
        ((∀ b ∈ buckets, ¬ usableBucket b) →
          _build_probability_lookup (some buckets) p = p)
        ∧ (∀ b₀ ∈ buckets, usableBucket b₀ →
            ∃ b ∈ buckets, usableBucket b
              ∧ _build_probability_lookup (some buckets) p = b.p_true.getD 0
              ∧ ∀ b' ∈ buckets, usableBucket b' →
                  bucketDelta p b ≤ bucketDelta p b')) := by
  refine ⟨fun p => rfl, ?_⟩
  intro buckets p
  constructor
  · intro hall
    rcases closestLoop_start p buckets with ⟨-, hnone⟩ | ⟨z, _, b, hb, hu, -, -⟩
    · simp [_build_probability_lookup, lookup_closest, hnone]
    · exact absurd hu (hall b hb)
  · intro b₀ hb₀ hu₀
    rcases closestLoop_start p buckets with ⟨hall, -⟩
      | ⟨z, hz, b, hb, hu, hzval, hmin⟩
    · exact absurd hu₀ (hall b₀ hb₀)
    · exact ⟨b, hb, hu,
        by simp [_build_probability_lookup, lookup_closest, hz, hzval], hmin⟩

/-- Witness for C2 (amended): identity with no calibration, and the
nearest-bucket characterization on a one-bucket calibration. -/
theorem probability_lookup_amended_witness :
    _build_probability_lookup none (1/3) = 1/3
    ∧ ((⟨0, 1/2, 1, 0, 0, some (1/5), some (1/10)⟩ : CalBucket)
        ∈ [(⟨0, 1/2, 1, 0, 0, some (1/5), some (1/10)⟩ : CalBucket)]
      ∧ usableBucket ⟨0, 1/2, 1, 0, 0, some (1/5), some (1/10)⟩)
    ∧ ∃ b ∈ [(⟨0, 1/2, 1, 0, 0, some (1/5), some (1/10)⟩ : CalBucket)],
        usableBucket b
        ∧ _build_probability_lookup
            (some [⟨0, 1/2, 1, 0, 0, some (1/5), some (1/10)⟩]) (1/2)
          = b.p_true.getD 0
        ∧ ∀ b' ∈ [(⟨0, 1/2, 1, 0, 0, some (1/5), some (1/10)⟩ : CalBucket)],
            usableBucket b' → bucketDelta (1/2) b ≤ bucketDelta (1/2) b' := by
  have hmem : (⟨0, 1/2, 1, 0, 0, some (1/5), some (1/10)⟩ : CalBucket)
      ∈ [(⟨0, 1/2, 1, 0, 0, some (1/5), some (1/10)⟩ : CalBucket)] := by
    simp
  have hus : usableBucket (⟨0, 1/2, 1, 0, 0, some (1/5), some (1/10)⟩ : CalBucket) := by
    simp [usableBucket]
  exact ⟨probability_lookup_amended.1 (1/3), ⟨hmem, hus⟩,
    (probability_lookup_amended.2
      [⟨0, 1/2, 1, 0, 0, some (1/5), some (1/10)⟩] (1/2)).2 _ hmem hus⟩

/-- Strictly increasing edge lists are strictly monotone under `getD`. -/
lemma edges_strict_mono {edges : List ℚ} (hchain : edges.Chain' (· < ·))
    {a b : ℕ} (hab : a < b) (hb : b < edges.length) :
    edges.getD a 0 < edges.getD b 0 := by
  have hp : edges.Pairwise (· < ·) := List.chain'_iff_pairwise.mp hchain
  rw [List.getD_eq_getElem _ _ (lt_trans hab hb), List.getD_eq_getElem _ _ hb]
  exact List.pairwise_iff_getElem.mp hp a b (lt_trans hab hb) hb hab

/-- The enumerated scan of `_bucket_from_edges` finds a bucket containing
`p` whenever `p` lies between the first and last edge of the scanned
suffix; the found bucket is half-open unless it is the final one. -/
lemma bucketScan_mem (p : ℚ) :
    ∀ (es : List ℚ) (idx n : ℕ), 2 ≤ es.length → idx + es.length = n →
      es.Chain' (· < ·) → es.getD 0 0 ≤ p → p ≤ es.getD (es.length - 1) 0 →
      ∃ j, j + 1 < es.length
        ∧ bucketScan n p idx (es.zip es.tail) = idx + j
        ∧ es.getD j 0 ≤ p
        ∧ (if idx + j = n - 2 then p ≤ es.getD (j+1) 0
           else p < es.getD (j+1) 0) := by
  intro es
  induction es with
  | nil =>
      intro idx n h2
      simp at h2
  | cons e₀ tail ih =>
      intro idx n h2 hn hchain hlow hhigh
      cases tail with
      | nil => simp at h2
      | cons e₁ rest =>
        cases rest with
        | nil =>
            have hidx : idx = n - 2 := by
              simp at hn
              omega
            refine ⟨0, by norm_num, ?_, by simpa using hlow, ?_⟩
            · show bucketScan n p idx [(e₀, e₁)] = idx + 0
              rw [bucketScan, if_pos (Or.inr ⟨hidx, by simpa using hhigh⟩)]
              omega
            · rw [if_pos (by omega)]
              simpa using hhigh
        | cons e₂ rest' =>
            have hlen : (e₀ :: e₁ :: e₂ :: rest').length = rest'.length + 3 := by
              simp
            have hidxne : idx ≠ n - 2 := by
              rw [hlen] at hn
              omega
            by_cases hpe₁ : p < e₁
            · refine ⟨0, by simp, ?_, by simpa using hlow, ?_⟩
              · show bucketScan n p idx
                  ((e₀, e₁) :: ((e₁ :: e₂ :: rest').zip (e₂ :: rest'))) = idx + 0
                rw [bucketScan, if_pos (Or.inl ⟨by simpa using hlow, hpe₁⟩)]
                omega
              · rw [if_neg (by omega)]
                simpa using hpe₁
            · have htail2 : 2 ≤ (e₁ :: e₂ :: rest').length := by simp
              have htailn : (idx + 1) + (e₁ :: e₂ :: rest').length = n := by
                rw [hlen] at hn
                simp
                omega
              have htailchain : (e₁ :: e₂ :: rest').Chain' (· < ·) :=
                hchain.tail
              have htaillow : (e₁ :: e₂ :: rest').getD 0 0 ≤ p := by
                simpa using not_lt.mp hpe₁
              have htailhigh : p ≤ (e₁ :: e₂ :: rest').getD
                  ((e₁ :: e₂ :: rest').length - 1) 0 := by
                have : (e₀ :: e₁ :: e₂ :: rest').getD
                    ((e₀ :: e₁ :: e₂ :: rest').length - 1) 0
                    = (e₁ :: e₂ :: rest').getD ((e₁ :: e₂ :: rest').length - 1) 0 := by
                  simp [List.getD_cons_succ]
                rw [← this]
                exact hhigh
              obtain ⟨j', hj'len, hscan, hjlow, hjhigh⟩ :=
                ih (idx + 1) n htail2 htailn htailchain htaillow htailhigh
              simp only [List.tail_cons] at hscan
              refine ⟨j' + 1, by simpa using hj'len, ?_, ?_, ?_⟩
              · show bucketScan n p idx
                  ((e₀, e₁) :: ((e₁ :: e₂ :: rest').zip (e₂ :: rest'))) = idx + (j' + 1)
                rw [bucketScan, if_neg]
                · rw [hscan]
                  omega
                · rintro (⟨-, hc⟩ | ⟨hc, -⟩)
                  · exact hpe₁ hc
                  · exact hidxne hc
              · simpa using hjlow
              · rw [show idx + (j' + 1) = (idx + 1) + j' by omega]
                simpa using hjhigh

/-- With strictly increasing edges, at most one bucket contains `p`. -/
lemma inBucketIdx_unique {edges : List ℚ} (hchain : edges.Chain' (· < ·))
    (hlen : 2 ≤ edges.length) {p : ℚ} {i j : ℕ}
    (hi : i ≤ edges.length - 2) (hj : j ≤ edges.length - 2)
    (hbi : inBucketIdx edges i p) (hbj : inBucketIdx edges j p) : i = j := by
  have key : ∀ a b, a ≤ edges.length - 2 → b ≤ edges.length - 2 → a < b →
      inBucketIdx edges a p → inBucketIdx edges b p → False := by
    intro a b ha hb hab hba hbb
    have hane : a ≠ edges.length - 2 := by omega
    have hlt : p < edges.getD (a+1) 0 := by
      have h := hba.2
      rw [if_neg hane] at h
      exact h
    have hle : edges.getD b 0 ≤ p := hbb.1
    have hmono : edges.getD (a+1) 0 ≤ edges.getD b 0 := by
      rcases eq_or_lt_of_le (show a + 1 ≤ b by omega) with heq | hlt2
      · rw [heq]
      · exact (edges_strict_mono hchain hlt2 (by omega)).le
    linarith
  by_contra hne
  rcases lt_or_gt_of_ne hne with h | h
  · exact key i j hi hj h hbi hbj
  · exact key j i hj hi h hbj hbi

/-- Strict increase of an edge list is exactly the pairwise condition the
bucket initializer checks over consecutive pairs. -/
lemma chain'_iff_zip_lt : ∀ edges : List ℚ,
    edges.Chain' (· < ·) ↔ ∀ q ∈ edges.zip edges.tail, q.1 < q.2 := by
  intro edges
  induction edges with
  | nil => simp
  | cons e tail ih =>
      cases tail with
      | nil => simp
      | cons e₁ rest =>
          rw [List.chain'_cons]
          simp only [List.tail_cons, List.zip_cons_cons, List.mem_cons]
          constructor
          · rintro ⟨h1, h2⟩ q hq
            rcases hq with hq | hq
            · rw [hq]
              exact h1
            · exact (ih.mp h2) q (by simpa using hq)
          · intro h
            refine ⟨h (e, e₁) (Or.inl rfl), ih.mpr ?_⟩
            intro q hq
            exact h q (Or.inr (by simpa using hq))

/-- The bucket initializer succeeds exactly when every consecutive edge
pair is strictly increasing. -/
lemma initBucketsGo_ok_iff : ∀ pairs : List (ℚ × ℚ),
    (∃ bs, initBucketsGo pairs = .ok bs) ↔ ∀ q ∈ pairs, q.1 < q.2 := by
  intro pairs
  induction pairs with
  | nil => simp [initBucketsGo]
  | cons q rest ih =>
      obtain ⟨low, high⟩ := q
      by_cases h : high ≤ low
      · refine ⟨fun ⟨bs, hbs⟩ => ?_, fun hall => absurd
          (hall (low, high) (List.mem_cons_self _ _)) (not_lt.mpr h)⟩
        rw [initBucketsGo, if_pos h] at hbs
        simp at hbs
      · have hlh : low < high := not_le.mp h
        constructor
        · rintro ⟨bs, hbs⟩ q' hq'
          rcases List.mem_cons.mp hq' with heq | hq'
          · rw [heq]
            exact hlh
          · refine (ih.mp ?_) q' hq'
            cases hrest : initBucketsGo rest with
            | error e =>
                rw [initBucketsGo, if_neg h, hrest] at hbs
                simp [Except.map] at hbs
            | ok bs' => exact ⟨bs', rfl⟩
        · intro hall
          obtain ⟨bs', hbs'⟩ :=
            ih.mpr (fun q' hq' => hall q' (List.mem_cons_of_mem _ hq'))
          refine ⟨⟨low, high, 0, 0, 0, none, none⟩ :: bs', ?_⟩
          rw [initBucketsGo, if_neg h, hbs']
          rfl

/-- **C5.** For every bin-edge list with at least two strictly increasing
values covering [0, 1], and every probability `p` in [0, 1],
`_bucket_from_edges` returns exactly one bucket index within range:
assignment is half-open `[low, high)` for every bucket except the last,
which also includes its upper edge (price exactly 1 falls in the last
bucket), and price exactly 0 always maps to bucket 0; and
`_init_buckets_from_edges` raises a configuration error exactly for edge
lists with fewer than two edges or non-increasing edges. -/
theorem bucket_assignment_spec :
    (∀ (edges : List ℚ) (p : ℚ),
        2 ≤ edges.length → edges.Chain' (· < ·) →
        edges.getD 0 0 = 0 → edges.getD (edges.length - 1) 0 = 1 →
        0 ≤ p → p ≤ 1 →
          _bucket_from_edges p edges ≤ edges.length - 2
          ∧ inBucketIdx edges (_bucket_from_edges p edges) p
          ∧ (∀ j, j ≤ edges.length - 2 → inBucketIdx edges j p →
              j = _bucket_from_edges p edges)
          ∧ (p = 0 → _bucket_from_edges p edges = 0)
          ∧ (p = 1 → _bucket_from_edges p edges = edges.length - 2))
    ∧ (∀ edges : List ℚ,
        (∃ bs, _init_buckets_from_edges edges = .ok bs)
        ↔ (2 ≤ edges.length ∧ edges.Chain' (· < ·))) := by
  constructor
  · intro edges p hlen hchain h0 h1 hp0 hp1
    cases edges with
    | nil => simp at hlen
    | cons e₀ tail =>
      have he₀ : e₀ = 0 := by simpa using h0
      have hlast : (e₀ :: tail).getLast (List.cons_ne_nil e₀ tail)
          = (e₀ :: tail).getD ((e₀ :: tail).length - 1) 0 := by
        rw [List.getLast_eq_getElem, List.getD_eq_getElem]
      have hlast1 : (e₀ :: tail).getLast (List.cons_ne_nil e₀ tail) = 1 := by
        rw [hlast, h1]
      by_cases hple : p ≤ e₀
      · have hpz : p = 0 := le_antisymm (he₀ ▸ hple) hp0
        have hres : _bucket_from_edges p (e₀ :: tail) = 0 := by
          rw [_bucket_from_edges, if_pos hple]
        refine ⟨by omega, ?_, ?_, fun _ => hres, ?_⟩
        · rw [hres]
          constructor
          · simp [he₀, hpz]
          · split_ifs with hcase
            · have : (e₀ :: tail).getD 1 0 = 1 := by
                have hl : (e₀ :: tail).length = 2 := by omega
                rw [← h1, hl]
              rw [this, hpz]
              norm_num
            · have h01 : (e₀ :: tail).getD 0 0 < (e₀ :: tail).getD 1 0 :=
                edges_strict_mono hchain (by omega) (by omega)
              rw [h0] at h01
              rw [hpz]
              exact h01
        · intro j hj hbj
          rw [hres]
          by_contra hne
          have hj1 : 1 ≤ j := by omega
          have hmono : (e₀ :: tail).getD 0 0 < (e₀ :: tail).getD j 0 :=
            edges_strict_mono hchain (by omega) (by omega)
          have hjle := hbj.1
          rw [h0] at hmono
          rw [hpz] at hjle
          linarith
        · intro hpone
          rw [hpz] at hpone
          norm_num at hpone
      · by_cases hplast : (e₀ :: tail).getLast (List.cons_ne_nil e₀ tail) ≤ p
        · have hpone : p = 1 := le_antisymm hp1 (hlast1 ▸ hplast)
          have hres : _bucket_from_edges p (e₀ :: tail)
              = (e₀ :: tail).length - 2 := by
            rw [_bucket_from_edges, if_neg hple, if_pos hplast]
          refine ⟨by omega, ?_, ?_, ?_, fun _ => hres⟩
          · rw [hres]
            constructor
            · have : (e₀ :: tail).getD ((e₀ :: tail).length - 2) 0
                  < (e₀ :: tail).getD ((e₀ :: tail).length - 1) 0 :=
                edges_strict_mono hchain (by omega) (by omega)
              rw [h1] at this
              rw [hpone]
              exact this.le
            · rw [if_pos rfl, show (e₀ :: tail).length - 2 + 1
                  = (e₀ :: tail).length - 1 by omega, h1]
              exact hp1
          · intro j hj hbj
            rw [hres]
            by_contra hne
            have hjlt : j < (e₀ :: tail).length - 2 := by omega
            have hup := hbj.2
            rw [if_neg (by omega)] at hup
            have hmono : (e₀ :: tail).getD (j+1) 0
                ≤ (e₀ :: tail).getD ((e₀ :: tail).length - 1) 0 := by
              rcases eq_or_lt_of_le (show j + 1 ≤ (e₀ :: tail).length - 1 by omega)
                with heq | hlt2
              · rw [heq]
              · exact (edges_strict_mono hchain hlt2 (by omega)).le
            rw [h1] at hmono
            linarith [hpone ▸ hup]
          · intro hpz
            rw [hpz] at hpone
            norm_num at hpone
        · have hlow' : (e₀ :: tail).getD 0 0 ≤ p := by
            rw [h0]
            exact hp0
          have hhigh' : p ≤ (e₀ :: tail).getD ((e₀ :: tail).length - 1) 0 := by
            rw [h1]
            exact hp1
          obtain ⟨j, hjlen, hscan, hjlow, hjhigh⟩ :=
            bucketScan_mem p (e₀ :: tail) 0 (e₀ :: tail).length hlen (by omega)
              hchain hlow' hhigh'
          have hres : _bucket_from_edges p (e₀ :: tail) = j := by
            rw [_bucket_from_edges, if_neg hple, if_neg hplast]
            simpa using hscan
          have hbj : inBucketIdx (e₀ :: tail) j p := by
            refine ⟨hjlow, ?_⟩
            simpa using hjhigh
          refine ⟨by omega, ?_, ?_, ?_, ?_⟩
          · rw [hres]
            exact hbj
          · intro j' hj' hbj'
            rw [hres]
            exact inBucketIdx_unique hchain hlen hj' (by omega) hbj' hbj
          · intro hpz
            rw [hpz] at hple
            exact absurd (he₀ ▸ le_refl (0 : ℚ)) hple
          · intro hpone
            rw [hpone] at hplast
            exact absurd (hlast1 ▸ le_refl (1 : ℚ)) hplast
  · intro edges
    constructor
    · rintro ⟨bs, hbs⟩
      by_cases hl : edges.length < 2
      · rw [_init_buckets_from_edges, if_pos hl] at hbs
        simp at hbs
      · refine ⟨not_lt.mp hl, ?_⟩
        rw [_init_buckets_from_edges, if_neg hl] at hbs
        exact (chain'_iff_zip_lt edges).mpr
          ((initBucketsGo_ok_iff _).mp ⟨bs, hbs⟩)
    · rintro ⟨hl, hchain⟩
      rw [_init_buckets_from_edges, if_neg (not_lt.mpr hl)]
      exact (initBucketsGo_ok_iff _).mpr ((chain'_iff_zip_lt edges).mp hchain)

/-- Witness for C5 on the edge list `[0, 1/2, 1]` at price `1/4`. -/
theorem bucket_assignment_spec_witness :
    (2 ≤ ([0, 1/2, 1] : List ℚ).length
      ∧ ([0, 1/2, 1] : List ℚ).Chain' (· < ·)
      ∧ ([0, 1/2, 1] : List ℚ).getD 0 0 = 0
      ∧ ([0, 1/2, 1] : List ℚ).getD (([0, 1/2, 1] : List ℚ).length - 1) 0 = 1
      ∧ (0 : ℚ) ≤ 1/4 ∧ (1/4 : ℚ) ≤ 1)
    ∧ (_bucket_from_edges (1/4) [0, 1/2, 1]
        ≤ ([0, 1/2, 1] : List ℚ).length - 2
      ∧ inBucketIdx [0, 1/2, 1] (_bucket_from_edges (1/4) [0, 1/2, 1]) (1/4)
      ∧ (∀ j, j ≤ ([0, 1/2, 1] : List ℚ).length - 2 →
          inBucketIdx [0, 1/2, 1] j (1/4) →
            j = _bucket_from_edges (1/4) [0, 1/2, 1])
      ∧ ((1/4 : ℚ) = 0 → _bucket_from_edges (1/4) [0, 1/2, 1] = 0)
      ∧ ((1/4 : ℚ) = 1 → _bucket_from_edges (1/4) [0, 1/2, 1]
          = ([0, 1/2, 1] : List ℚ).length - 2)) := by
  have h2 : 2 ≤ ([0, 1/2, 1] : List ℚ).length := by norm_num
  have hch : ([0, 1/2, 1] : List ℚ).Chain' (· < ·) := by
    simp [List.chain'_cons]
    norm_num
  have h0 : ([0, 1/2, 1] : List ℚ).getD 0 0 = 0 := by norm_num
  have h1 : ([0, 1/2, 1] : List ℚ).getD (([0, 1/2, 1] : List ℚ).length - 1) 0
      = 1 := by norm_num
  have hp0 : (0 : ℚ) ≤ 1/4 := by norm_num
  have hp1 : (1/4 : ℚ) ≤ 1 := by norm_num
  exact ⟨⟨h2, hch, h0, h1, hp0, hp1⟩,
    bucket_assignment_spec.1 [0, 1/2, 1] (1/4) h2 hch h0 h1 hp0 hp1⟩

/-- The linear interpolation of `estimate_p_true` stays between the segment
endpoint values. -/
lemma interp_bounds {x₀ y₀ x₁ y₁ p : ℚ} (hx : x₀ < x₁) (hy : y₀ ≤ y₁)
    (hp₀ : x₀ ≤ p) (hp₁ : p ≤ x₁) :
    y₀ ≤ y₀ + (p - x₀) / (x₁ - x₀) * (y₁ - y₀)
    ∧ y₀ + (p - x₀) / (x₁ - x₀) * (y₁ - y₀) ≤ y₁ := by
  have hd : 0 < x₁ - x₀ := by linarith
  have hw0 : 0 ≤ (p - x₀) / (x₁ - x₀) := div_nonneg (by linarith) hd.le
  have hw1 : (p - x₀) / (x₁ - x₀) ≤ 1 := by
    rw [div_le_one hd]
    linarith
  constructor
  · have := mul_nonneg hw0 (by linarith : (0:ℚ) ≤ y₁ - y₀)
    linarith
  · have := mul_le_of_le_one_left (by linarith : (0:ℚ) ≤ y₁ - y₀) hw1
    linarith

/-- The interpolation is monotone in the query within one segment. -/
lemma interp_mono {x₀ y₀ x₁ y₁ p q : ℚ} (hx : x₀ < x₁) (hy : y₀ ≤ y₁)
    (hpq : p ≤ q) :
    y₀ + (p - x₀) / (x₁ - x₀) * (y₁ - y₀)
      ≤ y₀ + (q - x₀) / (x₁ - x₀) * (y₁ - y₀) := by
  have hd : 0 < x₁ - x₀ := by linarith
  have hw : (p - x₀) / (x₁ - x₀) ≤ (q - x₀) / (x₁ - x₀) :=
    (div_le_div_iff_of_pos_right hd).mpr (by linarith)
  have := mul_le_mul_of_nonneg_right hw (by linarith : (0:ℚ) ≤ y₁ - y₀)
  linarith

/-- A non-decreasing second-coordinate chain bounds the head by the last. -/
lemma chainY_head_le_getLast :
    ∀ (pts : List (ℚ × ℚ)) (a : ℚ × ℚ),
      (a :: pts).Chain' (fun s t => s.2 ≤ t.2) →
      a.2 ≤ ((a :: pts).getLast (List.cons_ne_nil a pts)).2 := by
  intro pts
  induction pts with
  | nil => intro a _; simp
  | cons b rest ih =>
      intro a h
      rw [List.getLast_cons (List.cons_ne_nil b rest)]
      exact le_trans (List.chain'_cons.mp h).1 (ih b (List.chain'_cons.mp h).2)

/-- The segment scan of `estimate_p_true` returns at least the head value. -/
lemma scanSegments_lb (p : ℚ) :
    ∀ (pts : List (ℚ × ℚ)) (a : ℚ × ℚ) (v : ℚ),
      (a :: pts).Chain' (fun s t => s.1 < t.1) →
      (a :: pts).Chain' (fun s t => s.2 ≤ t.2) →
      scanSegments p (a :: pts) = some v → a.2 ≤ v := by
  intro pts
  induction pts with
  | nil =>
      intro a v _ _ h
      obtain ⟨a1, a2⟩ := a
      simp [scanSegments] at h
  | cons b rest ih =>
      intro a v hx hy hscan
      obtain ⟨a1, a2⟩ := a
      obtain ⟨b1, b2⟩ := b
      have hab1 : a1 < b1 := (List.chain'_cons.mp hx).1
      have hab2 : a2 ≤ b2 := (List.chain'_cons.mp hy).1
      rw [scanSegments] at hscan
      by_cases hcond : a1 ≤ p ∧ p ≤ b1
      · rw [if_pos hcond, Option.some_inj, if_neg (ne_of_gt hab1)] at hscan
        rw [← hscan]
        exact (interp_bounds hab1 hab2 hcond.1 hcond.2).1
      · rw [if_neg hcond] at hscan
        exact le_trans hab2
          (ih (b1, b2) v (List.chain'_cons.mp hx).2 (List.chain'_cons.mp hy).2
            hscan)

/-- The segment scan of `estimate_p_true` returns at most the last value. -/
lemma scanSegments_ub (p : ℚ) :
    ∀ (pts : List (ℚ × ℚ)) (a : ℚ × ℚ) (v : ℚ),
      (a :: pts).Chain' (fun s t => s.1 < t.1) →
      (a :: pts).Chain' (fun s t => s.2 ≤ t.2) →
      scanSegments p (a :: pts) = some v →
      v ≤ ((a :: pts).getLast (List.cons_ne_nil a pts)).2 := by
  intro pts
  induction pts with
  | nil =>
      intro a v _ _ h
      obtain ⟨a1, a2⟩ := a
      simp [scanSegments] at h
  | cons b rest ih =>
      intro a v hx hy hscan
      obtain ⟨a1, a2⟩ := a
      obtain ⟨b1, b2⟩ := b
      have hab1 : a1 < b1 := (List.chain'_cons.mp hx).1
      have hab2 : a2 ≤ b2 := (List.chain'_cons.mp hy).1
      rw [List.getLast_cons (List.cons_ne_nil _ rest)]
      rw [scanSegments] at hscan
      by_cases hcond : a1 ≤ p ∧ p ≤ b1
      · rw [if_pos hcond, Option.some_inj, if_neg (ne_of_gt hab1)] at hscan
        have hvb : v ≤ b2 := by
          rw [← hscan]
          exact (interp_bounds hab1 hab2 hcond.1 hcond.2).2
        exact le_trans hvb
          (chainY_head_le_getLast rest (b1, b2) (List.chain'_cons.mp hy).2)
      · rw [if_neg hcond] at hscan
        exact ih (b1, b2) v (List.chain'_cons.mp hx).2
          (List.chain'_cons.mp hy).2 hscan

/-- The segment scan succeeds whenever `p` lies between the first and last
abscissae of a two-or-more point list. -/
lemma scanSegments_total (p : ℚ) :
    ∀ (rest : List (ℚ × ℚ)) (a b : ℚ × ℚ),
      a.1 ≤ p →
      p ≤ ((a :: b :: rest).getLast (List.cons_ne_nil a (b :: rest))).1 →
      ∃ v, scanSegments p (a :: b :: rest) = some v := by
  intro rest
  induction rest with
  | nil =>
      intro a b ha hb
      obtain ⟨a1, a2⟩ := a
      obtain ⟨b1, b2⟩ := b
      simp only [List.getLast] at hb
      exact ⟨_, by rw [scanSegments, if_pos ⟨ha, by simpa using hb⟩]⟩
  | cons c rest' ih =>
      intro a b ha hb
      obtain ⟨a1, a2⟩ := a
      obtain ⟨b1, b2⟩ := b
      by_cases hpb : p ≤ b1
      · exact ⟨_, by rw [scanSegments, if_pos ⟨ha, hpb⟩]⟩
      · have hlast : p ≤ (((b1, b2) :: c :: rest').getLast
            (List.cons_ne_nil _ (c :: rest'))).1 := by
          rw [List.getLast_cons (List.cons_ne_nil _ (c :: rest'))] at hb
          exact hb
        obtain ⟨v, hv⟩ := ih (b1, b2) c (not_le.mp hpb).le hlast
        refine ⟨v, ?_⟩
        rw [scanSegments, if_neg (fun hc => hpb hc.2)]
        exact hv

/-- The segment scan is monotone in the query over a sorted point list
with non-decreasing values. -/
lemma scanSegments_mono {p q : ℚ} (hpq : p ≤ q) :
    ∀ (rest : List (ℚ × ℚ)) (a b : ℚ × ℚ) (vp vq : ℚ),
      (a :: b :: rest).Chain' (fun s t => s.1 < t.1) →
      (a :: b :: rest).Chain' (fun s t => s.2 ≤ t.2) →
      a.1 ≤ p →
      q ≤ ((a :: b :: rest).getLast (List.cons_ne_nil a (b :: rest))).1 →
      scanSegments p (a :: b :: rest) = some vp →
      scanSegments q (a :: b :: rest) = some vq →
      vp ≤ vq := by
  intro rest
  induction rest with
  | nil =>
      intro a b vp vq hx hy hap hqlast hsp hsq
      obtain ⟨a1, a2⟩ := a
      obtain ⟨b1, b2⟩ := b
      have hab1 : a1 < b1 := (List.chain'_cons.mp hx).1
      have hab2 : a2 ≤ b2 := (List.chain'_cons.mp hy).1
      simp only [List.getLast] at hqlast
      have hqb : q ≤ b1 := hqlast
      rw [scanSegments, if_pos ⟨hap, le_trans hpq hqb⟩, Option.some_inj,
        if_neg (ne_of_gt hab1)] at hsp
      rw [scanSegments, if_pos ⟨le_trans hap hpq, hqb⟩, Option.some_inj,
        if_neg (ne_of_gt hab1)] at hsq
      rw [← hsp, ← hsq]
      exact interp_mono hab1 hab2 hpq
  | cons c rest' ih =>
      intro a b vp vq hx hy hap hqlast hsp hsq
      obtain ⟨a1, a2⟩ := a
      obtain ⟨b1, b2⟩ := b
      have hab1 : a1 < b1 := (List.chain'_cons.mp hx).1
      have hab2 : a2 ≤ b2 := (List.chain'_cons.mp hy).1
      have hlast' : q ≤ (((b1, b2) :: c :: rest').getLast
          (List.cons_ne_nil _ (c :: rest'))).1 := by
        rw [List.getLast_cons (List.cons_ne_nil _ (c :: rest'))] at hqlast
        exact hqlast
      by_cases hqb : q ≤ b1
      · rw [scanSegments, if_pos ⟨hap, le_trans hpq hqb⟩, Option.some_inj,
          if_neg (ne_of_gt hab1)] at hsp
        rw [scanSegments, if_pos ⟨le_trans hap hpq, hqb⟩, Option.some_inj,
          if_neg (ne_of_gt hab1)] at hsq
        rw [← hsp, ← hsq]
        exact interp_mono hab1 hab2 hpq
      · by_cases hpb : p ≤ b1
        · rw [scanSegments, if_pos ⟨hap, hpb⟩, Option.some_inj,
            if_neg (ne_of_gt hab1)] at hsp
          have hvpb : vp ≤ b2 := by
            rw [← hsp]
            exact (interp_bounds hab1 hab2 hap hpb).2
          rw [scanSegments, if_neg (fun hc => hqb hc.2)] at hsq
          have hbvq : b2 ≤ vq :=
            scanSegments_lb q (c :: rest') (b1, b2) vq
              (List.chain'_cons.mp hx).2 (List.chain'_cons.mp hy).2 hsq
          exact le_trans hvpb hbvq
        · rw [scanSegments, if_neg (fun hc => hpb hc.2)] at hsp
          rw [scanSegments, if_neg (fun hc => hqb hc.2)] at hsq
          exact ih (b1, b2) c vp vq (List.chain'_cons.mp hx).2
            (List.chain'_cons.mp hy).2 (not_le.mp hpb).le hlast' hsp hsq

/-- A strictly increasing first-coordinate chain is strict from head to
last once there are at least two points. -/
lemma chainX_head_lt_getLast :
    ∀ (rest : List (ℚ × ℚ)) (a b : ℚ × ℚ),
      (a :: b :: rest).Chain' (fun s t => s.1 < t.1) →
      a.1 < ((a :: b :: rest).getLast (List.cons_ne_nil a (b :: rest))).1 := by
  intro rest
  induction rest with
  | nil =>
      intro a b h
      simpa using (List.chain'_cons.mp h).1
  | cons c rest' ih =>
      intro a b h
      rw [List.getLast_cons (List.cons_ne_nil b (c :: rest'))]
      exact lt_trans (List.chain'_cons.mp h).1 (ih b c (List.chain'_cons.mp h).2)

/-- **C9.** `estimate_p_true` is monotone non-decreasing in the market
price whenever the `p_true` values of the populated calibration buckets,
ordered by their (distinct) bucket midpoints, are non-decreasing; and for
any price at or below the first populated midpoint (resp. at or above the
last) it returns exactly that endpoint's `p_true`. -/
theorem estimate_p_true_monotone_clamped (bins : List CalBucket)
    (hx : (_bucket_midpoints bins).Chain' (fun s t => s.1 < t.1))
    (hy : (_bucket_midpoints bins).Chain' (fun s t => s.2 ≤ t.2))
    (hne : _bucket_midpoints bins ≠ []) :
    (∀ p q : ℚ, p ≤ q →
        ∃ vp vq, estimate_p_true p bins = some vp
          ∧ estimate_p_true q bins = some vq ∧ vp ≤ vq)
    ∧ (∀ p : ℚ, p ≤ ((_bucket_midpoints bins).headD (0, 0)).1 →
        estimate_p_true p bins
          = some ((_bucket_midpoints bins).headD (0, 0)).2)
    ∧ (∀ p : ℚ, ((_bucket_midpoints bins).getLastD (0, 0)).1 ≤ p →
        estimate_p_true p bins
          = some ((_bucket_midpoints bins).getLastD (0, 0)).2) := by
  obtain ⟨p₀, rest, hpts⟩ : ∃ p₀ rest, _bucket_midpoints bins = p₀ :: rest := by
    cases h : _bucket_midpoints bins with
    | nil => exact absurd h hne
    | cons a l => exact ⟨a, l, rfl⟩
  rw [hpts] at hx hy
  have hest : ∀ r, estimate_p_true r bins =
      (if r ≤ p₀.1 then some p₀.2
       else if ((p₀ :: rest).getLast (List.cons_ne_nil p₀ rest)).1 ≤ r
       then some ((p₀ :: rest).getLast (List.cons_ne_nil p₀ rest)).2
       else some ((scanSegments r (p₀ :: rest)).getD
         ((p₀ :: rest).getLast (List.cons_ne_nil p₀ rest)).2)) := by
    intro r
    simp only [estimate_p_true, hpts]
  set pl := (p₀ :: rest).getLast (List.cons_ne_nil p₀ rest) with hpl
  have hy0l : p₀.2 ≤ pl.2 := chainY_head_le_getLast rest p₀ hy
  have hint : ∀ r, ¬ r ≤ p₀.1 → ¬ pl.1 ≤ r →
      ∃ v, scanSegments r (p₀ :: rest) = some v ∧ p₀.2 ≤ v ∧ v ≤ pl.2 := by
    intro r hr0 hrl
    cases rest with
    | nil =>
        exfalso
        have h1 : p₀.1 < r := not_le.mp hr0
        have h2 : r < pl.1 := not_le.mp hrl
        have : pl = p₀ := by simp [hpl]
        rw [this] at h2
        linarith
    | cons b rest₂ =>
        obtain ⟨v, hv⟩ := scanSegments_total r rest₂ p₀ b (not_le.mp hr0).le
          (not_le.mp hrl).le
        exact ⟨v, hv, scanSegments_lb r _ p₀ v hx hy hv,
          scanSegments_ub r _ p₀ v hx hy hv⟩
  refine ⟨?_, ?_, ?_⟩
  · intro p q hpq
    by_cases hp0 : p ≤ p₀.1
    · have hp : estimate_p_true p bins = some p₀.2 := by
        rw [hest, if_pos hp0]
      by_cases hq0 : q ≤ p₀.1
      · exact ⟨p₀.2, p₀.2, hp, by rw [hest, if_pos hq0], le_refl _⟩
      · by_cases hql : pl.1 ≤ q
        · exact ⟨p₀.2, pl.2, hp, by rw [hest, if_neg hq0, if_pos hql], hy0l⟩
        · obtain ⟨vq, hvq, hvq1, hvq2⟩ := hint q hq0 hql
          refine ⟨p₀.2, vq, hp, ?_, hvq1⟩
          rw [hest, if_neg hq0, if_neg hql, hvq]
          rfl
    · have hq0 : ¬ q ≤ p₀.1 := fun h => hp0 (le_trans hpq h)
      by_cases hpl' : pl.1 ≤ p
      · have hql : pl.1 ≤ q := le_trans hpl' hpq
        exact ⟨pl.2, pl.2, by rw [hest, if_neg hp0, if_pos hpl'],
          by rw [hest, if_neg hq0, if_pos hql], le_refl _⟩
      · obtain ⟨vp, hvp, hvp1, hvp2⟩ := hint p hp0 hpl'
        have hpe : estimate_p_true p bins = some vp := by
          rw [hest, if_neg hp0, if_neg hpl', hvp]
          rfl
        by_cases hql : pl.1 ≤ q
        · exact ⟨vp, pl.2, hpe, by rw [hest, if_neg hq0, if_pos hql], hvp2⟩
        · obtain ⟨vq, hvq, hvq1, hvq2⟩ := hint q hq0 hql
          have hqe : estimate_p_true q bins = some vq := by
            rw [hest, if_neg hq0, if_neg hql, hvq]
            rfl
          cases rest with
          | nil =>
              exfalso
              have h1 : p₀.1 < p := not_le.mp hp0
              have h2 : p < pl.1 := not_le.mp hpl'
              have : pl = p₀ := by simp [hpl]
              rw [this] at h2
              linarith
          | cons b rest₂ =>
              exact ⟨vp, vq, hpe, hqe,
                scanSegments_mono hpq rest₂ p₀ b vp vq hx hy
                  (not_le.mp hp0).le (not_le.mp hql).le hvp hvq⟩
  · intro p hp
    rw [hpts] at hp ⊢
    have hp0 : p ≤ p₀.1 := by simpa using hp
    rw [hest, if_pos hp0]
    simp
  · intro p hp
    have hlastD : (p₀ :: rest).getLastD (0, 0) = pl := by
      rw [hpl, List.getLastD_eq_getLast?, List.getLast?_eq_getLast _
        (List.cons_ne_nil p₀ rest)]
      rfl
    rw [hpts, hlastD] at hp ⊢
    by_cases hp0 : p ≤ p₀.1
    · cases rest with
      | nil =>
          have : pl = p₀ := by simp [hpl]
          rw [hest, if_pos hp0, this]
      | cons b rest₂ =>
          exfalso
          have hlt : p₀.1 < pl.1 := by
            rw [hpl]
            exact chainX_head_lt_getLast rest₂ p₀ b hx
          linarith
    · rw [hest, if_neg hp0, if_pos hp]

/-- Witness for C9 on a single-bucket calibration: below the only
midpoint, the estimate clamps to that bucket's `p_true`. -/
theorem estimate_p_true_monotone_clamped_witness :
    ((_bucket_midpoints [⟨0, 1, 1, 1, 0, some (1/2), some (3/5)⟩]).Chain'
        (fun s t => s.1 < t.1)
      ∧ (_bucket_midpoints [⟨0, 1, 1, 1, 0, some (1/2), some (3/5)⟩]).Chain'
        (fun s t => s.2 ≤ t.2)
      ∧ _bucket_midpoints [⟨0, 1, 1, 1, 0, some (1/2), some (3/5)⟩] ≠ [])
    ∧ ((0:ℚ) ≤ ((_bucket_midpoints
          [⟨0, 1, 1, 1, 0, some (1/2), some (3/5)⟩]).headD (0, 0)).1
      ∧ estimate_p_true 0 [⟨0, 1, 1, 1, 0, some (1/2), some (3/5)⟩]
        = some ((_bucket_midpoints
            [⟨0, 1, 1, 1, 0, some (1/2), some (3/5)⟩]).headD (0, 0)).2) := by
  have hmid : _bucket_midpoints [⟨0, 1, 1, 1, 0, some (1/2), some (3/5)⟩]
      = [((1:ℚ)/2, (3:ℚ)/5)] := by
    unfold _bucket_midpoints
    have hfm : List.filterMap
        (fun b : CalBucket =>
          match b.p_true with
          | none => none
          | some pt =>
              some (b.bucket_low + (b.bucket_high - b.bucket_low) / 2, pt))
        [⟨0, 1, 1, 1, 0, some (1/2), some (3/5)⟩]
        = [((1:ℚ)/2, (3:ℚ)/5)] := by
      norm_num [List.filterMap]
    rw [hfm]
    apply List.mergeSort_of_sorted
    simp
  have hx : (_bucket_midpoints [⟨0, 1, 1, 1, 0, some (1/2), some (3/5)⟩]).Chain'
      (fun s t : ℚ × ℚ => s.1 < t.1) := by
    rw [hmid]
    simp
  have hy : (_bucket_midpoints [⟨0, 1, 1, 1, 0, some (1/2), some (3/5)⟩]).Chain'
      (fun s t : ℚ × ℚ => s.2 ≤ t.2) := by
    rw [hmid]
    simp
  have hne : _bucket_midpoints [⟨0, 1, 1, 1, 0, some (1/2), some (3/5)⟩] ≠ [] := by
    rw [hmid]
    simp
  have hple : (0:ℚ) ≤ ((_bucket_midpoints
      [⟨0, 1, 1, 1, 0, some (1/2), some (3/5)⟩]).headD (0, 0)).1 := by
    rw [hmid]
    norm_num
  exact ⟨⟨hx, hy, hne⟩, hple,
    (estimate_p_true_monotone_clamped _ hx hy hne).2.1 0 hple⟩

/-- `Int.log` from a bracketing pair of powers of two. -/
lemma int_log_eq {r : ℚ} (e : ℤ) (hr : 0 < r) (h1 : (2:ℚ)^e ≤ r)
    (h2 : r < (2:ℚ)^(e+1)) : Int.log 2 r = e := by
  have hle : e ≤ Int.log 2 r := (Int.zpow_le_iff_le_log one_lt_two hr).mp h1
  have hlt : Int.log 2 r < e + 1 := (Int.lt_zpow_iff_log_lt one_lt_two hr).mp h2
  omega

/-- Evaluate `fpRound` from the exponent bracket, the rounded mantissa and
the absence of a tie. -/
lemma fpRound_eq_of {q v : ℚ} (e n : ℤ) (hq : q ≠ 0)
    (h1 : (2:ℚ)^e ≤ |q|) (h2 : |q| < (2:ℚ)^(e+1))
    (hnt : Int.fract (q / 2^(e-52)) ≠ 1/2)
    (hn : round (q / 2^(e-52)) = n)
    (hv : (n:ℚ) * 2^(e-52) = v) :
    fpRound q = v := by
  have hlog : Int.log 2 |q| = e := int_log_eq e (abs_pos.mpr hq) h1 h2
  simp only [fpRound, if_neg hq, hlog, if_neg hnt, hn, hv]

/-- Binary64 evaluation of the sizing at the NO-side 0.8 test inputs:
`3602879701896397/2^52` is the double nearest 0.8 and
`1080863910568919/2^55` the double nearest 0.03; the computed per-contract
risk is `900719925474099/2^52` (just below 0.2) and the size is 16. -/
lemma compute_order_size_fp_eval :
    compute_order_size_for_signal_fp .no (3602879701896397/4503599627370496) 1000
      ⟨50, 200, 500⟩ 0 0 (1080863910568919/36028797018963968)
    = (16, 900719925474099/4503599627370496) := by
  have h1 : fpRound (1 - 3602879701896397/4503599627370496)
      = 900719925474099/4503599627370496 := by
    apply fpRound_eq_of (-3) 7205759403792792
    · norm_num
    · rw [abs_of_pos (by norm_num)]
      norm_num
    · rw [abs_of_pos (by norm_num)]
      norm_num
    · have hm : ((1:ℚ) - 3602879701896397/4503599627370496) / 2^((-3:ℤ)-52)
          = (7205759403792792 : ℚ) := by norm_num
      rw [hm]
      simp [Int.fract]
    · have hm : ((1:ℚ) - 3602879701896397/4503599627370496) / 2^((-3:ℤ)-52)
          = (7205759403792792 : ℚ) := by norm_num
      rw [hm]
      simp
    · norm_num
  have h2 : fpRound (1000 * (1080863910568919/36028797018963968)) = 30 := by
    apply fpRound_eq_of 4 8444249301319680
    · norm_num
    · rw [abs_of_pos (by norm_num)]
      norm_num
    · rw [abs_of_pos (by norm_num)]
      norm_num
    · have hm : ((1000:ℚ) * (1080863910568919/36028797018963968)) / 2^((4:ℤ)-52)
          = (1080863910568919000 / 128 : ℚ) := by norm_num
      rw [hm]
      have hfl : ⌊(1080863910568919000 / 128 : ℚ)⌋ = 8444249301319679 := by
        apply Int.floor_eq_iff.mpr
        constructor <;> norm_num
      unfold Int.fract
      rw [hfl]
      norm_num
    · have hm : ((1000:ℚ) * (1080863910568919/36028797018963968)) / 2^((4:ℤ)-52)
          = (1080863910568919000 / 128 : ℚ) := by norm_num
      rw [hm, round_eq]
      apply Int.floor_eq_iff.mpr
      constructor <;> norm_num
    · norm_num
  have h3 : fpRound ((200:ℚ) - 0) = 200 := by
    apply fpRound_eq_of 7 7036874417766400
    · norm_num
    · rw [abs_of_pos (by norm_num)]
      norm_num
    · rw [abs_of_pos (by norm_num)]
      norm_num
    · have hm : ((200:ℚ) - 0) / 2^((7:ℤ)-52) = (7036874417766400 : ℚ) := by norm_num
      rw [hm]
      simp [Int.fract]
    · have hm : ((200:ℚ) - 0) / 2^((7:ℤ)-52) = (7036874417766400 : ℚ) := by norm_num
      rw [hm]
      simp
    · norm_num
  have h4 : fpRound ((500:ℚ) - 0) = 500 := by
    apply fpRound_eq_of 8 8796093022208000
    · norm_num
    · rw [abs_of_pos (by norm_num)]
      norm_num
    · rw [abs_of_pos (by norm_num)]
      norm_num
    · have hm : ((500:ℚ) - 0) / 2^((8:ℤ)-52) = (8796093022208000 : ℚ) := by norm_num
      rw [hm]
      simp [Int.fract]
    · have hm : ((500:ℚ) - 0) / 2^((8:ℤ)-52) = (8796093022208000 : ℚ) := by norm_num
      rw [hm]
      simp
    · norm_num
  have h5 : fpRound ((4503599627370496 : ℚ) / 300239975158033)
      = 4222124650659841/281474976710656 := by
    apply fpRound_eq_of 3 8444249301319682
    · norm_num
    · rw [abs_of_pos (by norm_num)]
      norm_num
    · rw [abs_of_pos (by norm_num)]
      norm_num
    · have hm : ((4503599627370496 : ℚ) / 300239975158033) / 2^((3:ℤ)-52)
          = (2535301200456458802993406410752 / 300239975158033 : ℚ) := by norm_num
      rw [hm]
      have hfl : ⌊(2535301200456458802993406410752 / 300239975158033 : ℚ)⌋
          = 8444249301319681 := by
        apply Int.floor_eq_iff.mpr
        constructor <;> norm_num
      unfold Int.fract
      rw [hfl]
      norm_num
    · have hm : ((4503599627370496 : ℚ) / 300239975158033) / 2^((3:ℤ)-52)
          = (2535301200456458802993406410752 / 300239975158033 : ℚ) := by norm_num
      rw [hm, round_eq]
      apply Int.floor_eq_iff.mpr
      constructor <;> norm_num
    · norm_num
  have h6 : fpRound ((900719925474099 : ℚ) / 281474976710656)
      = 900719925474099/281474976710656 := by
    apply fpRound_eq_of 1 7205759403792792
    · norm_num
    · rw [abs_of_pos (by norm_num)]
      norm_num
    · rw [abs_of_pos (by norm_num)]
      norm_num
    · have hm : ((900719925474099 : ℚ) / 281474976710656) / 2^((1:ℤ)-52)
          = (7205759403792792 : ℚ) := by norm_num
      rw [hm]
      simp [Int.fract]
    · have hm : ((900719925474099 : ℚ) / 281474976710656) / 2^((1:ℤ)-52)
          = (7205759403792792 : ℚ) := by norm_num
      rw [hm]
      simp
    · norm_num
  simp only [compute_order_size_for_signal_fp, h1, h2, h3, h4]
  norm_num [min_def, h5, MAX_CONTRACTS_CAP]
  have hceil : (⌈(4222124650659841 / 281474976710656 : ℚ)⌉ : ℤ) = 16 := by
    apply Int.ceil_eq_iff.mpr
    constructor <;> norm_num
  rw [hceil]
  norm_num [h6]

/-- **C4 counterexample.** On binary64 floats (`1.0 - 0.8` rounds to
`0.19999999999999995559…`, so `3 / risk` rounds just above 15), the no-side
0.8 sizing returns size 16, not 15, and the per-contract risk is not
exactly 0.2 — as the repository's own `test_sizing.py` asserts
(`assert size == 16`). -/
theorem sizing_no_side_counterexample :
    compute_order_size_for_signal_fp .no (3602879701896397/4503599627370496) 1000
        ⟨50, 200, 500⟩ 0 0 (1080863910568919/36028797018963968)
      = (16, 900719925474099/4503599627370496)
    ∧ (compute_order_size_for_signal_fp .no (3602879701896397/4503599627370496)
        1000 ⟨50, 200, 500⟩ 0 0 (1080863910568919/36028797018963968)).1 ≠ 15
    ∧ (compute_order_size_for_signal_fp .no (3602879701896397/4503599627370496)
        1000 ⟨50, 200, 500⟩ 0 0 (1080863910568919/36028797018963968)).2
      ≠ 1/5 := by
  refine ⟨compute_order_size_fp_eval, ?_, ?_⟩
  · rw [compute_order_size_fp_eval]
    norm_num
  · rw [compute_order_size_fp_eval]
    norm_num

/-- **C4 (amended).** With side NO and the binary64 representations of
price 0.8 and risk fraction 0.03, bankroll 1000 and caps (50, 200, 500),
the code computes a per-contract risk of `900719925474099/2^52`
(0.19999999999999995559…, slightly below 0.2) and returns size 16; the
value `ceil(3/0.2) = 15` of the claim arises only under exact arithmetic,
where the same inputs yield `(15, 1/5)`. -/
theorem sizing_no_side_amended :
    compute_order_size_for_signal_fp .no (3602879701896397/4503599627370496) 1000
        ⟨50, 200, 500⟩ 0 0 (1080863910568919/36028797018963968)
      = (16, 900719925474099/4503599627370496)
    ∧ compute_order_size_for_signal .no (8/10) 1000 ⟨50, 200, 500⟩ 0 0 (3/100)
      = (15, 1/5) := by
  refine ⟨compute_order_size_fp_eval, ?_⟩
  norm_num [compute_order_size_for_signal, sideRiskPerContract, bindingCap,
    MAX_CONTRACTS_CAP]

end KalshiEdge
